import Mathlib
/-!
Verification of the todo boolean-graph engine (`backend/app/core/services.py` and
the batch endpoint of `backend/app/api/routes.py`).

The Python service layer is shallowly embedded below: dataclasses become
structures, the Cypher queries acting on the node/edge store become pure
functions over `List Node` / `List Dependency` snapshots, and the memoized
recursive evaluators (which terminate on acyclic graphs) become fuel-indexed
recursive functions whose fuel is large enough to stabilize on every acyclic
snapshot.  Node ids are unique in the store (Neo4j constraint
`node_id_unique`), which some theorems take as a hypothesis.
-/

namespace Todo
/-! ### Directed reachability over the edge set

The Cypher patterns `(a)-[:DEPENDS_ON*]->(b)` (used by `has_cycles`,
`would_cycle` and the closure fetch of `get_node`) are modelled by an
inductive path predicate over the list of `(from_id, to_id)` pairs, together
with an executable breadth-first closure computation proved equivalent. -/
/-! ### The value and due-date evaluators

`_build_graph_indexes` keys nodes by id and splits the dependency list into
the forward index (`from_id -> [to_id]`) and the reverse index
(`to_id -> [from_id]`).  `_build_value_calculator` and
`_build_due_calculator` are memoized recursions over those indexes; on an
acyclic graph the memoized recursion computes the unique fixed point, which
the fuel-indexed functions below reach for any sufficiently large fuel. -/
/-! ### Definitions (shallow embedding of the source) -/
/-- Node dataclass from `services.py` (fields as in the Python dataclass;
`completed` is `None` for gate nodes). -/
structure Node where
  id : String
  node_type : String
  text : String := ""
  completed : Option Bool := none
  due : Option Int := none
  created_at : Option Int := none
  updated_at : Option Int := none
deriving Repr, DecidableEq
/-- EnrichedNode dataclass: a node plus the derived fields, each `None`
until calculated (and left `None` when the graph has cycles). -/
structure EnrichedNode where
  node : Node
  calculated_value : Option Bool := none
  calculated_due : Option Int := none
  deps_clear : Option Bool := none
  is_actionable : Option Bool := none
deriving Repr, DecidableEq
/-- Dependency dataclass: a directed edge, `from_id` depends on `to_id`. -/
structure Dependency where
  id : String
  from_id : String
  to_id : String
deriving Repr, DecidableEq
/-- VALID_NODE_TYPES whitelist from `services.py`. -/
def VALID_NODE_TYPES : List String := ["Task", "And", "Or", "Not", "ExactlyOne"]
/-- Embedding of `_calculate_gate_logic(node_type, dep_values)`:
Task/And use AND over the dependency values (vacuously true when empty),
Or requires a non-empty list with some true value, Not is NOR,
ExactlyOne counts the true values, any other kind is permissively true. -/
def calculateGateLogic (node_type : String) (dep_values : List Bool) : Bool :=
  match node_type with
  | "Task" | "And" => dep_values.isEmpty || dep_values.all (fun b => b)
  | "Or" => !dep_values.isEmpty && dep_values.any (fun b => b)
  | "Not" => !(dep_values.any (fun b => b))
  | "ExactlyOne" => dep_values.count true == 1
  | _ => true
/-- Edge pairs `(from_id, to_id)` of a dependency list. -/
def edgePairs (es : List Dependency) : List (String × String) :=
  es.map (fun d => (d.from_id, d.to_id))
/-- A directed path of length at least one, following edges left to right. -/
inductive Path (ps : List (String × String)) : String → String → Prop
  | single {a b : String} : (a, b) ∈ ps → Path ps a b
  | cons {a b c : String} : (a, b) ∈ ps → Path ps b c → Path ps a c
/-- The graph is acyclic: no node reaches itself by a non-empty path. -/
def Acyclic (ps : List (String × String)) : Prop := ∀ a, ¬ Path ps a a
/-- One expansion step of the closure computation: add the target of every
edge whose source is already collected and whose target is not. -/
def reachStep (ps : List (String × String)) (acc : List String) : List String :=
  acc ++ (ps.filter (fun p => acc.contains p.1 && !(acc.contains p.2))).map (fun p => p.2)
/-- Iterate `reachStep`. -/
def reachIter (ps : List (String × String)) : Nat → List String → List String
  | 0, acc => acc
  | n + 1, acc => reachIter ps n (reachStep ps acc)
/-- Executable reflexive-transitive closure of a single start node: at most
`ps.length` expansion steps are ever needed (each useful step adds at least
one edge target). -/
def reachableList (ps : List (String × String)) (s : String) : List String :=
  reachIter ps ps.length [s]
/-- A collected set is saturated when it is closed under following edges. -/
def Saturated (ps : List (String × String)) (acc : List String) : Prop :=
  ∀ p ∈ ps, p.1 ∈ acc → p.2 ∈ acc
/-- Number of edges whose target has not been collected yet; strictly
decreases on every useful expansion step. -/
def missing (ps : List (String × String)) (acc : List String) : Nat :=
  ps.countP (fun p => !(acc.contains p.2))
/-- Executable test for `Path ps a b` (a path of length at least one),
mirroring the Cypher pattern `(a)-[:DEPENDS_ON*]->(b)`. -/
def pathB (ps : List (String × String)) (a b : String) : Bool :=
  ps.any (fun p => p.1 == a && (p.2 == b || (reachableList ps p.2).contains b))
/-- Executable test for a path of length at least two, mirroring the Cypher
pattern `(x)-[:DEPENDS_ON*2..]->(y)` of the transitive-reduction query. -/
def path2B (ps : List (String × String)) (a b : String) : Bool :=
  ps.any (fun p => p.1 == a && pathB ps p.2 b)
/-- A path of length at least two: a first edge followed by a path. -/
def Path2 (ps : List (String × String)) (a b : String) : Prop :=
  ∃ c, (a, c) ∈ ps ∧ Path ps c b
/-- Dictionary lookup `nodes[node_id]` (node ids are unique in the store). -/
def findNode (nodes : List Node) (nid : String) : Option Node :=
  nodes.find? (fun n => n.id == nid)
/-- Forward dependency index: `deps_fwd.get(nid, [])`. -/
def depsFwd (es : List Dependency) (nid : String) : List String :=
  (es.filter (fun d => d.from_id == nid)).map (fun d => d.to_id)
/-- Reverse dependency index: `deps_rev.get(nid, [])`. -/
def depsRev (es : List Dependency) (nid : String) : List String :=
  (es.filter (fun d => d.to_id == nid)).map (fun d => d.from_id)
/-- Fuel-indexed embedding of the memoized closure built by
`_build_value_calculator(nodes, deps)`: `calculated_value` is
`completed AND deps_clear` for a Task and `deps_clear` for a gate, where
`deps_clear` is the gate logic over the recursively calculated dependency
values.  A missing node id never occurs on the graphs the service evaluates
(edges reference existing nodes); it is mapped to `false`. -/
def calcValueFuel (nodes : List Node) (es : List Dependency) : Nat → String → Bool
  | 0, _ => false
  | fuel + 1, nid =>
    match findNode nodes nid with
    | none => false
    | some node =>
      let dep_values := (depsFwd es nid).map (fun d => calcValueFuel nodes es fuel d)
      let deps_clear := calculateGateLogic node.node_type dep_values
      if node.node_type == "Task" then (node.completed.getD false) && deps_clear
      else deps_clear
/-- Fuel large enough for every evaluation over an acyclic snapshot. -/
def evalFuel (es : List Dependency) : Nat := 2 * es.length + 1
/-- The value calculator as evaluated by the service layer. -/
def calcValue (nodes : List Node) (es : List Dependency) (nid : String) : Bool :=
  calcValueFuel nodes es (evalFuel es) nid
/-- Python truthiness of an optional due value (`if nodes[node_id].due`):
`None` and `0` are falsy, so a zero timestamp counts as no due date. -/
def pyTruthyDue : Option Int → List Int
  | some d => if d = 0 then [] else [d]
  | none => []
/-- Embedding of `filter(None, ...)` over optional due results: drops `None`
and the falsy value `0`. -/
def pyFilterDue (o : Option Int) : Option Int :=
  match o with
  | some v => if v = 0 then none else some v
  | none => none
/-- Fuel-indexed embedding of `_build_due_calculator(nodes, downstream)`,
exactly as invoked by the service layer: the `downstream` index passed in is
`deps_rev` (`to_id -> [from_id]`), so the recursion follows edges from a
node to the nodes that depend on it. -/
def calcDueFuel (nodes : List Node) (es : List Dependency) : Nat → String → Option Int
  | 0, _ => none
  | fuel + 1, nid =>
    let own : List Int :=
      match findNode nodes nid with
      | some n => pyTruthyDue n.due
      | none => []
    let rest := ((depsRev es nid).map (fun d => calcDueFuel nodes es fuel d)).filterMap pyFilterDue
    (own ++ rest).min?
/-- The due calculator as evaluated by the service layer. -/
def calcDue (nodes : List Node) (es : List Dependency) (nid : String) : Option Int :=
  calcDueFuel nodes es (evalFuel es) nid

/-- Embedding of the sort key of `_sort_by_updated`:
`dict.get("updated_at") or dict.get("created_at") or 0`, where Python
treats both `None` and `0` as falsy. -/
def pyOrKey (a : Option Int) (b : Int) : Int :=
  match a with
  | some v => if v = 0 then b else v
  | none => b

/-- Full sort key of a node record. -/
def pyKey (n : Node) : Int := pyOrKey n.updated_at (pyOrKey n.created_at 0)

/-- Stable descending insertion (a later element goes after existing equal
keys, matching the stability of Python `sorted` with `reverse=True`). -/
def insertDesc (n : Node) : List Node → List Node
  | [] => [n]
  | m :: rest => if pyKey m < pyKey n then n :: m :: rest else m :: insertDesc n rest

/-- Embedding of `_sort_by_updated`: stable sort, descending by `pyKey`. -/
def sortByUpdated (l : List Node) : List Node :=
  l.foldl (fun acc n => insertDesc n acc) []

/-- Embedding of `has_cycles`: some stored node reaches itself through one
or more `DEPENDS_ON` edges. -/
def hasCyclesB (nodes : List Node) (es : List Dependency) : Bool :=
  nodes.any (fun n => pathB (edgePairs es) n.id n.id)

/-- The `deps_clear` computation of `list_nodes`/`get_node`: gate logic over
the calculated values of the nodes this node depends on. -/
def depsClearCalc (nodes : List Node) (es : List Dependency) (n : Node) : Bool :=
  calculateGateLogic n.node_type ((depsFwd es n.id).map (calcValue nodes es))

/-- The `is_actionable` computation of `list_nodes`/`get_node`. -/
def isActionableCalc (nodes : List Node) (es : List Dependency) (n : Node) : Bool :=
  n.node_type == "Task" && !(n.completed.getD false) && depsClearCalc nodes es n

/-- Per-node enrichment step of the `list_nodes` loop. -/
def enrichNode (nodes : List Node) (es : List Dependency) (n : Node) : EnrichedNode :=
  { node := n
    calculated_value := some (calcValue nodes es n.id)
    calculated_due := calcDue nodes es n.id
    deps_clear := some (depsClearCalc nodes es n)
    is_actionable := some (isActionableCalc nodes es n) }

/-- Embedding of `list_nodes`: sort the records, list the dependencies,
check for cycles, and enrich every node unless a cycle is present. -/
def listNodes (nodes : List Node) (es : List Dependency) :
    List EnrichedNode × List Dependency × Bool :=
  let sortedNodes := sortByUpdated nodes
  if hasCyclesB nodes es then
    (sortedNodes.map (fun n => { node := n }), es, true)
  else
    (sortedNodes.map (fun n => enrichNode sortedNodes es n), es, false)

/-- Node ids of the transitive-dependency closure of `s` fetched by
`get_node` (the start node plus every node reachable along outgoing
`DEPENDS_ON` edges). -/
def closureIds (es : List Dependency) (s : String) : List String :=
  reachableList (edgePairs es) s

/-- Membership in the closure fetched by `get_node`: the start node itself
or any node reachable from it along outgoing dependency edges. -/
def InClosure (es : List Dependency) (s x : String) : Prop :=
  x = s ∨ Path (edgePairs es) s x

/-- The node records of the closure subgraph fetched by `get_node`. -/
def gnClosureNodes (nodes : List Node) (es : List Dependency) (s : String) : List Node :=
  nodes.filter (fun m => (closureIds es s).contains m.id)

/-- The id set `closure_ids` of `get_node` (ids of the fetched records). -/
def gnClosureIdList (nodes : List Node) (es : List Dependency) (s : String) : List String :=
  (gnClosureNodes nodes es s).map (fun m => m.id)

/-- The `relevant_deps` of `get_node`: dependencies with both endpoints
inside the closure id set. -/
def gnRelevantDeps (nodes : List Node) (es : List Dependency) (s : String) : List Dependency :=
  es.filter (fun d => (gnClosureIdList nodes es s).contains d.from_id
    && (gnClosureIdList nodes es s).contains d.to_id)

/-- Embedding of `get_node`: evaluate only over the closure subgraph, with
the same calculators as `list_nodes` but restricted node and edge sets. -/
def getNode (nodes : List Node) (es : List Dependency) (nid : String) : Option EnrichedNode :=
  match findNode nodes nid with
  | none => none
  | some n =>
    if hasCyclesB nodes es then some { node := n }
    else
      let closureNodes := gnClosureNodes nodes es nid
      let relevantDeps := gnRelevantDeps nodes es nid
      let dc := calculateGateLogic n.node_type
        ((depsFwd relevantDeps nid).map (calcValue closureNodes relevantDeps))
      some { node := n
             calculated_value := some (calcValue closureNodes relevantDeps nid)
             calculated_due := calcDue closureNodes relevantDeps nid
             deps_clear := some dc
             is_actionable := some ((n.node_type == "Task") && !(n.completed.getD false) && dc) }
/-- Concrete acyclic sample store used by witnesses: Task `A` (completed),
Task `B` and gate `G`, with `B` and `G` each depending on `A`. -/
def sampleA : Node := { id := "A", node_type := "Task", completed := some true }

/-- Sample Task `B` (not completed, due 5), depends on `A`. -/
def sampleB : Node := { id := "B", node_type := "Task", completed := some false, due := some 5 }

/-- Sample And gate `G`, depends on `A`. -/
def sampleG : Node := { id := "G", node_type := "And" }

/-- The sample node list. -/
def sampleNodes : List Node := [sampleA, sampleB, sampleG]

/-- The sample dependency list. -/
def sampleDeps : List Dependency :=
  [{ id := "e1", from_id := "B", to_id := "A" },
   { id := "e2", from_id := "G", to_id := "A" }]

/-- A rank function witnessing acyclicity of the sample store. -/
def sampleRank : String → Nat := fun s => if s = "A" then 0 else 1

/-- Concrete cyclic sample store: tasks `X` and `Y` depending on each other. -/
def cycX : Node := { id := "X", node_type := "Task", completed := some false }

/-- Second node of the cyclic sample store. -/
def cycY : Node := { id := "Y", node_type := "Task", completed := some false }

/-- The cyclic sample node list. -/
def cycNodes : List Node := [cycX, cycY]

/-- The cyclic sample dependency list. -/
def cycDeps : List Dependency :=
  [{ id := "c1", from_id := "X", to_id := "Y" },
   { id := "c2", from_id := "Y", to_id := "X" }]
/-- Self-loop error message of `_create_dependency`. -/
def selfLoopMsg (fromId : String) : String := s!"Self-loop not allowed: {fromId}"

/-- Missing-source error message of `_create_dependency`. -/
def sourceMissingMsg (fromId : String) : String := s!"Source node not found: {fromId}"

/-- Missing-target error message of `_create_dependency`. -/
def targetMissingMsg (toId : String) : String := s!"Target node not found: {toId}"

/-- Cycle-rejection error message of `_create_dependency`, naming the
endpoints of the already-existing offending path. -/
def cycleMsg (fromId toId : String) : String :=
  s!"Creating edge {fromId} -> {toId} would create a cycle. A path already exists from {toId} to {fromId}"

/-- The transitive-reduction subquery of `_CREATE_DEPENDENCY_QUERY`: delete
every edge `x -> y` for which a path of length at least two from `x` to `y`
also exists. -/
def reduceEdges (es : List Dependency) : List Dependency :=
  es.filter (fun d => !(path2B (edgePairs es) d.from_id d.to_id))

/-- The `MERGE` step of `_CREATE_DEPENDENCY_QUERY`: reuse an existing
`from -> to` edge (keeping its stored id) or append a new edge carrying the
freshly generated id. -/
def mergeEdge (es : List Dependency) (depId fromId toId : String) : String × List Dependency :=
  match es.find? (fun d => d.from_id == fromId && d.to_id == toId) with
  | some d => (d.id, es)
  | none => (depId, es ++ [{ id := depId, from_id := fromId, to_id := toId }])

/-- Embedding of `_create_dependency`: reject self-loops, missing endpoints
and edges whose insertion would close a cycle (a path from `to_id` to
`from_id` already exists); otherwise merge the edge and run the transitive
reduction inside the same operation.  `depId` stands for the freshly drawn
`uuid4`. -/
def createDependency (nodes : List Node) (es : List Dependency)
    (depId fromId toId : String) : Except String (String × List Dependency) :=
  if fromId == toId then .error (selfLoopMsg fromId)
  else if !(nodes.any (fun n => n.id == fromId)) then .error (sourceMissingMsg fromId)
  else if !(nodes.any (fun n => n.id == toId)) then .error (targetMissingMsg toId)
  else if pathB (edgePairs es) toId fromId then .error (cycleMsg fromId toId)
  else
    .ok ((mergeEdge es depId fromId toId).1,
      reduceEdges (mergeEdge es depId fromId toId).2)

/-- Edge set persisted after a link call: a failed call raises inside the
write transaction, which rolls back, leaving the stored edges unchanged. -/
def linkResultEdges (nodes : List Node) (es : List Dependency)
    (depId fromId toId : String) : List Dependency :=
  match createDependency nodes es depId fromId toId with
  | .ok r => r.2
  | .error _ => es
/-- Three-state `due` parameter of `update_node` (the `_UNSET` sentinel
distinguishes "not supplied" from "supplied as null"). -/
inductive DueParam
  | unset
  | clear
  | setTo (v : Int)
deriving Repr, DecidableEq

/-- Node-type change block of `update_node` applied to the matched record:
an atomic label swap that adds the `completed` property when converting to
Task and removes it when converting away (the optimistic
concurrent-modification re-check always passes against one snapshot). -/
def applyTypeChange (n : Node) (newType : String) (completed : Option Bool)
    (now : Int) : Node :=
  if newType == "Task" && !(n.node_type == "Task") then
    { n with node_type := newType, updated_at := some now,
             completed := some (completed.getD false) }
  else if n.node_type == "Task" && !(newType == "Task") then
    { n with node_type := newType, updated_at := some now, completed := none }
  else
    { n with node_type := newType, updated_at := some now }

/-- The props write `SET n += $props` of `update_node` on the matched id:
only supplied fields change (`due = null` removes the property), and
`updated_at` is refreshed. -/
def applyProps (nodes : List Node) (id : String) (text : Option String)
    (completed : Option Bool) (due : DueParam) (now : Int) : List Node :=
  nodes.map (fun n =>
    if n.id == id then
      { n with
        text := (match text with | some t => t | none => n.text),
        completed := (match completed with | some c => some c | none => n.completed),
        due := (match due with
          | DueParam.unset => n.due
          | DueParam.clear => none
          | DueParam.setTo v => some v),
        updated_at := some now }
    else n)

/-- The Cypher update `MATCH (n:Task {id}) SET n.completed = false` used by
the propagation walk: only a record carrying the Task label is cleared. -/
def setTaskIncomplete (nodes : List Node) (pid : String) (now : Int) : List Node :=
  nodes.map (fun n =>
    if n.id == pid && n.node_type == "Task" then
      { n with completed := some false, updated_at := some now }
    else n)

/-- The parent query of `_propagate_uncompletion`: Task nodes that directly
depend on `taskId` (edges with `to_id = taskId`) and whose stored
`completed` is currently true. -/
def trueTaskParents (nodes : List Node) (es : List Dependency) (taskId : String) :
    List String :=
  (depsRev es taskId).filter (fun p =>
    match findNode nodes p with
    | some n => n.node_type == "Task" && n.completed == some true
    | none => false)

/-- The per-parent loop body of `_propagate_uncompletion`: clear the parent
(the `SET n.completed = false` write), recurse into it via `propFn`, and
collect the touched ids in Python's order (`[p] ++ recursive ids`). -/
def propagateList (now : Int)
    (propFn : List Node → String → List Node × List String) :
    List Node → List String → List Node × List String
  | nodes, [] => (nodes, [])
  | nodes, p :: rest =>
    let ns1 := setTaskIncomplete nodes p now
    let r := propFn ns1 p
    let r2 := propagateList now propFn r.1 rest
    (r2.1, p :: (r.2 ++ r2.2))

/-- Embedding of `_propagate_uncompletion`: fetch the currently-complete
Task parents, then clear each in turn and recurse into it immediately,
collecting the touched ids.  `fuel` bounds the recursion depth; on acyclic
graphs any fuel above the maximal rank reproduces the Python recursion. -/
def propagateUncompletion (es : List Dependency) (now : Int) :
    Nat → List Node → String → List Node × List String
  | 0, nodes, _ => (nodes, [])
  | fuel + 1, nodes, taskId =>
    propagateList now (propagateUncompletion es now fuel) nodes
      (trueTaskParents nodes es taskId)

/-- A stored record that is a Task currently marked complete. -/
def IsTrueTask (nodes : List Node) (p : String) : Prop :=
  ∃ n, findNode nodes p = some n ∧ n.node_type = "Task" ∧ n.completed = some true

/-- A stored record whose `completed` flag is cleared (stored as false). -/
def IsFalse (nodes : List Node) (q : String) : Prop :=
  ∃ n, findNode nodes q = some n ∧ n.completed = some false

/-- Upward chain: `p` is reachable from `t` through a chain of directly
dependent Tasks, each of which is marked complete in `base`. -/
inductive UpTrue (base : List Node) (es : List Dependency) : String → String → Prop
  | direct {t p : String} : (p, t) ∈ edgePairs es → IsTrueTask base p → UpTrue base es t p
  | step {t q p : String} : UpTrue base es t q → (p, q) ∈ edgePairs es →
      IsTrueTask base p → UpTrue base es t p

/-- Per-record effect of the propagation walk: either untouched, or (for a
Task record) completed cleared and `updated_at` stamped. -/
def ClearedR (now : Int) (o c : Node) : Prop :=
  c = o ∨ (o.node_type = "Task" ∧ c = { o with completed := some false, updated_at := some now })

/-- A state reachable from `base` by propagation writes only. -/
def Evolved (now : Int) (base s : List Node) : Prop :=
  List.Forall₂ (ClearedR now) base s

/-- Fuel sufficient for the propagation walk on an acyclic snapshot. -/
def propFuel (es : List Dependency) : Nat := 2 * es.length + 2

/-- Invalid-current-type error message of `update_node`. -/
def invalidCurrentMsg (t : String) : String := s!"Invalid current node type: {t}"

/-- Invalid-target-type error message of `update_node`. -/
def invalidTargetMsg (t : String) : String := s!"Invalid target node type: {t}"

/-- Tail of `update_node` after the optional type change: decide whether an
uncompletion must propagate (the target is a Task currently marked complete
and `completed` is supplied falsy), apply the props write when some field
was supplied, then run the propagation. -/
def updateNodeRest (nodes : List Node) (es : List Dependency) (id : String)
    (text : Option String) (completed : Option Bool) (due : DueParam) (now : Int) :
    Except String (Bool × List Node × List String) :=
  let propagate := (match completed with
    | some c => !c && (match findNode nodes id with
        | some n => n.node_type == "Task" && n.completed == some true
        | none => false)
    | none => false)
  if text.isSome || completed.isSome || !(due == DueParam.unset) then
    match findNode nodes id with
    | none => .ok (false, nodes, [])
    | some _ =>
      let nodes2 := applyProps nodes id text completed due now
      if propagate then
        let r := propagateUncompletion es now (propFuel es) nodes2 id
        .ok (true, r.1, r.2)
      else .ok (true, nodes2, [])
  else
    if propagate then
      let r := propagateUncompletion es now (propFuel es) nodes id
      .ok (true, r.1, r.2)
    else .ok (true, nodes, [])

/-- Embedding of `update_node`: optional atomic type change (validating
both kinds against the whitelist), partial property update, and
uncompletion propagation.  `ValueError` raises become `Except.error`. -/
def updateNode (nodes : List Node) (es : List Dependency) (id : String)
    (node_type : Option String) (text : Option String) (completed : Option Bool)
    (due : DueParam) (now : Int) : Except String (Bool × List Node × List String) :=
  match node_type with
  | none => updateNodeRest nodes es id text completed due now
  | some nt =>
    match findNode nodes id with
    | none => .ok (false, nodes, [])
    | some n =>
      if n.node_type == nt then
        updateNodeRest nodes es id text completed due now
      else if !(VALID_NODE_TYPES.contains n.node_type) then
        .error (invalidCurrentMsg n.node_type)
      else if !(VALID_NODE_TYPES.contains nt) then
        .error (invalidTargetMsg nt)
      else
        updateNodeRest
          (nodes.map (fun m => if m.id == id then applyTypeChange m nt completed now else m))
          es id text completed due now
/-- Propagation sample: the uncompleted target Task `T0`. -/
def propT0 : Node := { id := "T0", node_type := "Task", completed := some true }

/-- Completed Task `T1`, depends on `T0`. -/
def propT1 : Node := { id := "T1", node_type := "Task", completed := some true }

/-- Completed Task `T2`, depends on `T1`. -/
def propT2 : Node := { id := "T2", node_type := "Task", completed := some true }

/-- Incomplete Task `F`, depends on `T0` (breaks the chain). -/
def propF : Node := { id := "F", node_type := "Task", completed := some false }

/-- Gate `GG`, depends on `T0` (never touched by the walk). -/
def propG : Node := { id := "GG", node_type := "And" }

/-- The propagation sample node list. -/
def propNodes : List Node := [propT0, propT1, propT2, propF, propG]

/-- The propagation sample edges. -/
def propEdges : List Dependency :=
  [{ id := "p1", from_id := "T1", to_id := "T0" },
   { id := "p2", from_id := "T2", to_id := "T1" },
   { id := "p3", from_id := "F", to_id := "T0" },
   { id := "p4", from_id := "GG", to_id := "T0" }]

/-- Acyclicity rank for the propagation sample. -/
def propRank : String → Nat :=
  fun s => if s = "T0" then 0 else if s = "T2" then 2 else 1
/-- Snapshot of the node/edge store threaded through a batch, plus a
counter standing for the fresh `uuid4` ids drawn for new edges. -/
structure GraphState where
  nodes : List Node
  deps : List Dependency
  fresh : Nat
deriving Repr, DecidableEq

/-- Fresh dependency id produced by the uuid generator. -/
def freshDepId (k : Nat) : String := s!"dep-{k}"

/-- Embedding of `add_node`: validate the kind, model the `node_id_unique`
store constraint (a duplicate id aborts the transaction with a constraint
error), store `completed` only for Task kind, then create a dependency for
each id in `depends` (this node depends on them) and `blocks` (each blocker
depends on this node) through the `_create_dependency` path. -/
def addNode (st : GraphState) (id : String) (node_type : String) (text : Option String)
    (completed : Bool) (due : Option Int) (depends blocks : List String) (now : Int) :
    Except String GraphState :=
  if !(VALID_NODE_TYPES.contains node_type) then
    .error s!"Invalid node type: {node_type}"
  else if (findNode st.nodes id).isSome then
    .error s!"Node already exists: {id}"
  else
    (depends.map (fun d => (id, d)) ++ blocks.map (fun b => (b, id))).foldl
      (fun acc pair =>
        match acc with
        | .error e => .error e
        | .ok s =>
          match createDependency s.nodes s.deps (freshDepId s.fresh) pair.1 pair.2 with
          | .error e => .error e
          | .ok r => .ok { s with deps := r.2, fresh := s.fresh + 1 })
      (.ok { st with nodes := st.nodes ++ [{
        id := id, node_type := node_type, text := text.getD "",
        completed := if node_type == "Task" then some completed else none,
        due := due, created_at := some now, updated_at := some now }] })

/-- Embedding of `remove_node` (`DETACH DELETE`): removes the record and
every incident edge; reports whether a record was found. -/
def removeNode (st : GraphState) (id : String) : Bool × GraphState :=
  (st.nodes.any (fun n => n.id == id),
   { st with
     nodes := st.nodes.filter (fun n => !(n.id == id)),
     deps := st.deps.filter (fun d => !(d.from_id == id) && !(d.to_id == id)) })

/-- Embedding of `rename_node`: reject equal ids, an existing target id and
a missing source id; otherwise swap the identifier (edges, which in the
graph store are attached to the node itself, keep pointing at it — modelled
by rewriting the endpoint ids). -/
def renameNode (st : GraphState) (old_id new_id : String) (now : Int) :
    Except String GraphState :=
  if old_id == new_id then .error "Old and new IDs are the same"
  else if st.nodes.any (fun n => n.id == new_id) then
    .error s!"Node \x27{new_id}\x27 already exists"
  else if !(st.nodes.any (fun n => n.id == old_id)) then
    .error s!"Node \x27{old_id}\x27 not found"
  else .ok { st with
    nodes := st.nodes.map (fun n =>
      if n.id == old_id then { n with id := new_id, updated_at := some now } else n),
    deps := st.deps.map (fun d =>
      { d with
        from_id := if d.from_id == old_id then new_id else d.from_id,
        to_id := if d.to_id == old_id then new_id else d.to_id }) }

/-- Embedding of `unlink_nodes`: delete the matching edges, report whether
one was found. -/
def unlinkNodes (st : GraphState) (from_id to_id : String) : Bool × GraphState :=
  (st.deps.any (fun d => d.from_id == from_id && d.to_id == to_id),
   { st with deps := st.deps.filter (fun d => !(d.from_id == from_id && d.to_id == to_id)) })

/-- The node-graph operations of the batch endpoint. -/
inductive BatchOp
  | createNode (id node_type : String) (text : Option String) (completed : Bool)
      (due : Option Int) (depends blocks : List String)
  | updateNode (id : String) (node_type text : Option String) (completed : Option Bool)
      (due : DueParam)
  | deleteNode (id : String)
  | renameNode (id new_id : String)
  | link (from_id to_id : String)
  | unlink (from_id to_id : String)
deriving Repr, DecidableEq

/-- The `op` discriminator string of each operation. -/
def opName : BatchOp → String
  | .createNode .. => "create_node"
  | .updateNode .. => "update_node"
  | .deleteNode .. => "delete_node"
  | .renameNode .. => "rename_node"
  | .link .. => "link"
  | .unlink .. => "unlink"

/-- Embedding of `_dispatch_operation` for the node-graph operations: each
service call runs against the threaded state; a not-found result raises. -/
def dispatchOp (st : GraphState) (now : Int) : BatchOp → Except String GraphState
  | .createNode id nt text completed due depends blocks =>
      addNode st id nt text completed due depends blocks now
  | .updateNode id nt text completed due =>
      match updateNode st.nodes st.deps id nt text completed due now with
      | .error e => .error e
      | .ok r =>
        if r.1 then .ok { st with nodes := r.2.1 }
        else .error s!"Node \x27{id}\x27 not found"
  | .deleteNode id =>
      if (removeNode st id).1 then .ok (removeNode st id).2
      else .error s!"Node \x27{id}\x27 not found"
  | .renameNode id new_id => renameNode st id new_id now
  | .link f t =>
      match createDependency st.nodes st.deps (freshDepId st.fresh) f t with
      | .error e => .error e
      | .ok r => .ok { st with deps := r.2, fresh := st.fresh + 1 }
  | .unlink f t =>
      if (unlinkNodes st f t).1 then .ok (unlinkNodes st f t).2
      else .error s!"Link {f} -> {t} not found"

/-- Result entry of one batch operation. -/
structure BatchOpResult where
  op : String
  success : Bool
  message : Option String
deriving Repr, DecidableEq

/-- Response of the batch endpoint. -/
structure BatchResponse where
  success : Bool
  results : List BatchOpResult
  message : Option String
deriving Repr, DecidableEq

/-- The `_run_all` loop of `batch_operations`: run each operation in turn;
on the first failure record its message, mark every remaining operation
skipped, and re-raise (aborting the transaction). -/
def runBatchAux (now : Int) : GraphState → List BatchOp → GraphState × Bool × List BatchOpResult
  | st, [] => (st, true, [])
  | st, op :: rest =>
    match dispatchOp st now op with
    | .ok st2 =>
      let r := runBatchAux now st2 rest
      (r.1, r.2.1, ⟨opName op, true, none⟩ :: r.2.2)
    | .error e =>
      (st, false, ⟨opName op, false, some e⟩ ::
        rest.map (fun o => ⟨opName o, false, some "skipped"⟩))

/-- Embedding of `batch_operations`: the loop runs in one write transaction;
a raised error rolls the store back to the initial state, and the response
carries the first failing result's message. -/
def runBatch (st0 : GraphState) (ops : List BatchOp) (now : Int) :
    GraphState × BatchResponse :=
  let r := runBatchAux now st0 ops
  if r.2.1 then
    (r.1, { success := true, results := r.2.2, message := none })
  else
    (st0, { success := false, results := r.2.2,
            message := match r.2.2.find? (fun x => !x.success) with
              | some x => x.message
              | none => some "unknown error" })

/-- All-success execution of a prefix of the batch (used to state where the
first failure occurs). -/
def applyOps (now : Int) : GraphState → List BatchOp → Option GraphState
  | st, [] => some st
  | st, op :: rest =>
    match dispatchOp st now op with
    | .ok st2 => applyOps now st2 rest
    | .error _ => none
/-! ### Theorems -/
/-- Claim C1: the gate logic table.  And (and Task) are true iff the list is
empty or all values are true; Or is true iff the list is non-empty and some
value is true; Not is true iff no value is true; ExactlyOne is true iff
exactly one value is true; any unknown kind yields true; and the five-row
truth table from the spec holds on the concrete inputs. -/
theorem gate_logic_spec :
    (∀ dv : List Bool,
      (calculateGateLogic "Task" dv = true ↔ (∀ b ∈ dv, b = true)) ∧
      (calculateGateLogic "And" dv = true ↔ (∀ b ∈ dv, b = true)) ∧
      (calculateGateLogic "Or" dv = true ↔ (dv ≠ [] ∧ ∃ b ∈ dv, b = true)) ∧
      (calculateGateLogic "Not" dv = true ↔ (∀ b ∈ dv, b = false)) ∧
      (calculateGateLogic "ExactlyOne" dv = true ↔ dv.count true = 1)) ∧
    (∀ nt : String, nt ∉ VALID_NODE_TYPES → ∀ dv, calculateGateLogic nt dv = true) ∧
    ([[], [true], [false], [true, false], [true, true]].map
        (fun dv => (calculateGateLogic "And" dv, calculateGateLogic "Or" dv,
                    calculateGateLogic "Not" dv, calculateGateLogic "ExactlyOne" dv))
      = [(true, false, true, false), (true, true, false, true),
         (false, false, true, false), (false, true, false, true),
         (true, true, false, false)]) := by
  refine ⟨?_, ?_, by decide⟩
  · intro dv
    have hA : ∀ l : List Bool, (l.isEmpty || l.all (fun b => b)) = true ↔ ∀ b ∈ l, b = true := by
      intro l
      cases l with
      | nil => simp
      | cons x xs => simp [List.all_eq_true]
    refine ⟨?_, ?_, ?_, ?_, ?_⟩
    · show (dv.isEmpty || dv.all (fun b => b)) = true ↔ _
      exact hA dv
    · show (dv.isEmpty || dv.all (fun b => b)) = true ↔ _
      exact hA dv
    · show (!dv.isEmpty && dv.any (fun b => b)) = true ↔ _
      simp [List.any_eq_true, List.isEmpty_iff]
    · show (!(dv.any (fun b => b))) = true ↔ _
      simp [List.any_eq_true]
    · show (dv.count true == 1) = true ↔ _
      simp
  · intro nt hnt dv
    simp [VALID_NODE_TYPES] at hnt
    obtain ⟨h1, h2, h3, h4, h5⟩ := hnt
    unfold calculateGateLogic
    split <;> simp_all
/-- Witness for the hypothesis-bearing part of `gate_logic_spec`: an unknown
kind evaluates to true on a concrete list. -/
theorem gate_logic_spec_witness :
    "Gate" ∉ VALID_NODE_TYPES ∧ calculateGateLogic "Gate" [false] = true :=
  ⟨by decide, gate_logic_spec.2.1 "Gate" (by decide) [false]⟩
theorem path_snoc {ps : List (String × String)} {a b c : String}
    (h : Path ps a b) (e : (b, c) ∈ ps) : Path ps a c := by
  induction h with
  | single h1 => exact Path.cons h1 (Path.single e)
  | cons h1 _ ih => exact Path.cons h1 (ih e)
theorem path_trans {ps : List (String × String)} {a b c : String}
    (h1 : Path ps a b) (h2 : Path ps b c) : Path ps a c := by
  induction h1 with
  | single h => exact Path.cons h h2
  | cons h _ ih => exact Path.cons h (ih h2)
theorem path_mono {ps qs : List (String × String)} (hsub : ∀ p ∈ ps, p ∈ qs)
    {a b : String} (h : Path ps a b) : Path qs a b := by
  induction h with
  | single h => exact Path.single (hsub _ h)
  | cons h _ ih => exact Path.cons (hsub _ h) ih
theorem path_src_mem {ps : List (String × String)} {a b : String}
    (h : Path ps a b) : ∃ p ∈ ps, p.1 = a := by
  cases h with
  | single h => exact ⟨_, h, rfl⟩
  | cons h _ => exact ⟨_, h, rfl⟩
theorem path_dst_mem {ps : List (String × String)} {a b : String}
    (h : Path ps a b) : ∃ p ∈ ps, p.2 = b := by
  induction h with
  | single h => exact ⟨_, h, rfl⟩
  | cons _ _ ih => exact ih
theorem path_swap {ps : List (String × String)} {a b : String}
    (h : Path ps a b) : Path (ps.map Prod.swap) b a := by
  induction h with
  | single h => exact Path.single (List.mem_map_of_mem Prod.swap h)
  | cons h _ ih => exact path_snoc ih (List.mem_map_of_mem Prod.swap h)
theorem acyclic_swap {ps : List (String × String)} (h : Acyclic ps) :
    Acyclic (ps.map Prod.swap) := by
  intro a ha
  have h2 : Path ((ps.map Prod.swap).map Prod.swap) a a := path_swap ha
  rw [List.map_map] at h2
  have : (Prod.swap ∘ Prod.swap : String × String → String × String) = id := by
    funext p
    cases p
    rfl
  rw [this, List.map_id] at h2
  exact h a h2
theorem subset_reachStep (ps : List (String × String)) (acc : List String) :
    ∀ x ∈ acc, x ∈ reachStep ps acc := by
  intro x hx
  exact List.mem_append_left _ hx
theorem subset_reachIter (ps : List (String × String)) :
    ∀ (n : Nat) (acc : List String), ∀ x ∈ acc, x ∈ reachIter ps n acc := by
  intro n
  induction n with
  | zero => intro acc x hx; exact hx
  | succ m ih =>
    intro acc x hx
    exact ih (reachStep ps acc) x (subset_reachStep ps acc x hx)
theorem mem_reachStep_sound {ps : List (String × String)} {acc : List String}
    {x : String} (hx : x ∈ reachStep ps acc) :
    x ∈ acc ∨ ∃ a ∈ acc, (a, x) ∈ ps := by
  rcases List.mem_append.mp hx with h | h
  · exact Or.inl h
  · right
    obtain ⟨p, hp, rfl⟩ := List.mem_map.mp h
    have hf := List.of_mem_filter hp
    have hmem := List.mem_of_mem_filter hp
    simp only [Bool.and_eq_true, Bool.not_eq_true'] at hf
    exact ⟨p.1, List.elem_iff.mp hf.1, hmem⟩
theorem reachStep_saturated {ps : List (String × String)} {acc : List String}
    (h : Saturated ps acc) : reachStep ps acc = acc := by
  unfold reachStep
  have hnil : ps.filter (fun p => acc.contains p.1 && !(acc.contains p.2)) = [] := by
    rw [List.filter_eq_nil_iff]
    intro p hp
    intro hcontra
    simp only [Bool.and_eq_true, Bool.not_eq_true'] at hcontra
    have h1 : p.1 ∈ acc := List.elem_iff.mp hcontra.1
    have h2 : p.2 ∈ acc := h p hp h1
    have h3 : acc.contains p.2 = true := List.elem_iff.mpr h2
    rw [h3] at hcontra
    exact absurd hcontra.2 (by simp)
  rw [hnil]
  simp
theorem contains_true {l : List String} {x : String} :
    l.contains x = true ↔ x ∈ l := List.elem_iff
theorem contains_false {l : List String} {x : String} :
    l.contains x = false ↔ x ∉ l := by
  constructor
  · intro h hm
    have h2 : l.contains x = true := contains_true.mpr hm
    rw [h2] at h
    cases h
  · intro h
    cases hb : l.contains x
    · rfl
    · exact absurd (contains_true.mp hb) h
theorem countP_strict_lt {α : Type} (l : List α) (p q : α → Bool)
    (himp : ∀ x ∈ l, q x = true → p x = true)
    (hwit : ∃ x ∈ l, p x = true ∧ q x = false) :
    l.countP q < l.countP p := by
  induction l with
  | nil => simp at hwit
  | cons a t ih =>
    rw [List.countP_cons, List.countP_cons]
    obtain ⟨x, hx, hpx, hqx⟩ := hwit
    rcases List.mem_cons.mp hx with rfl | hx
    · rw [hpx, hqx]
      have hle : t.countP q ≤ t.countP p := by
        apply List.countP_mono_left
        intro y hy
        exact himp y (List.mem_cons_of_mem _ hy)
      simp only [eq_self_iff_true, Bool.false_eq_true, if_true, if_false]
      omega
    · have hlt : t.countP q < t.countP p :=
        ih (fun y hy => himp y (List.mem_cons_of_mem _ hy)) ⟨x, hx, hpx, hqx⟩
      have : (if q a = true then 1 else 0) ≤ (if p a = true then 1 else 0) := by
        by_cases hq : q a = true
        · rw [if_pos hq, if_pos (himp a (List.mem_cons_self a t) hq)]
        · rw [if_neg hq]
          omega
      omega
theorem missing_step_lt {ps : List (String × String)} {acc : List String}
    (h : ¬ Saturated ps acc) : missing ps (reachStep ps acc) < missing ps acc := by
  unfold Saturated at h
  push_neg at h
  obtain ⟨p, hp, h1, h2⟩ := h
  apply countP_strict_lt
  · intro x hx hq
    simp only [Bool.not_eq_true'] at hq ⊢
    apply contains_false.mpr
    intro hmem
    have hstep : x.2 ∈ reachStep ps acc := subset_reachStep ps acc _ hmem
    exact absurd hstep (contains_false.mp hq)
  · refine ⟨p, hp, ?_, ?_⟩
    · show (!(acc.contains p.2)) = true
      rw [contains_false.mpr h2]
      rfl
    · show (!((reachStep ps acc).contains p.2)) = false
      have hmem : p.2 ∈ reachStep ps acc := by
        unfold reachStep
        apply List.mem_append_right
        apply List.mem_map.mpr
        refine ⟨p, List.mem_filter.mpr ⟨hp, ?_⟩, rfl⟩
        simp only [Bool.and_eq_true, Bool.not_eq_true']
        exact ⟨contains_true.mpr h1, contains_false.mpr h2⟩
      rw [contains_true.mpr hmem]
      rfl
theorem reachIter_of_saturated {ps : List (String × String)} {acc : List String}
    (h : Saturated ps acc) : ∀ n, reachIter ps n acc = acc := by
  intro n
  induction n with
  | zero => rfl
  | succ m ih =>
    show reachIter ps m (reachStep ps acc) = acc
    rw [reachStep_saturated h]
    exact ih
theorem saturated_reachIter (ps : List (String × String)) :
    ∀ (n : Nat) (acc : List String), missing ps acc ≤ n →
      Saturated ps (reachIter ps n acc) := by
  intro n
  induction n with
  | zero =>
    intro acc hm p hp h1
    have hz0 : ps.countP (fun p => !(acc.contains p.2)) = 0 := Nat.le_zero.mp hm
    have hz := List.countP_eq_zero.mp hz0 p hp
    simp only [Bool.not_eq_true'] at hz
    cases hb : acc.contains p.2 with
    | false => exact absurd hb hz
    | true => exact contains_true.mp hb
  | succ m ih =>
    intro acc hm
    by_cases hs : Saturated ps acc
    · show Saturated ps (reachIter ps m (reachStep ps acc))
      rw [reachStep_saturated hs, reachIter_of_saturated hs]
      exact hs
    · show Saturated ps (reachIter ps m (reachStep ps acc))
      exact ih _ (by have := missing_step_lt hs; omega)
theorem saturated_reachableList (ps : List (String × String)) (s : String) :
    Saturated ps (reachableList ps s) := by
  apply saturated_reachIter
  unfold missing
  exact List.countP_le_length _
theorem reachIter_sound (ps : List (String × String)) (s : String) :
    ∀ (n : Nat) (acc : List String),
      (∀ x ∈ acc, x = s ∨ Path ps s x) →
      ∀ x ∈ reachIter ps n acc, x = s ∨ Path ps s x := by
  intro n
  induction n with
  | zero => intro acc hacc x hx; exact hacc x hx
  | succ m ih =>
    intro acc hacc x hx
    apply ih (reachStep ps acc) _ x hx
    intro y hy
    rcases mem_reachStep_sound hy with h | ⟨a, ha, hedge⟩
    · exact hacc y h
    · rcases hacc a ha with rfl | hpath
      · exact Or.inr (Path.single hedge)
      · exact Or.inr (path_snoc hpath hedge)
theorem path_mem_saturated {ps : List (String × String)} {s x : String}
    (h : Path ps s x) : ∀ acc, Saturated ps acc → s ∈ acc → x ∈ acc := by
  induction h with
  | single h => intro acc hsat hs; exact hsat _ h hs
  | cons h _ ih => intro acc hsat hs; exact ih acc hsat (hsat _ h hs)
/-- Correctness of the executable closure: membership is exactly
reflexive-transitive reachability. -/
theorem mem_reachableList {ps : List (String × String)} {s x : String} :
    x ∈ reachableList ps s ↔ (x = s ∨ Path ps s x) := by
  constructor
  · intro hx
    apply reachIter_sound ps s ps.length [s] _ x hx
    intro y hy
    simp at hy
    exact Or.inl hy
  · intro hx
    rcases hx with h | hpath
    · rw [h]
      exact subset_reachIter ps ps.length [s] s (by simp)
    · exact path_mem_saturated hpath _ (saturated_reachableList ps s)
        (subset_reachIter ps ps.length [s] s (by simp))
theorem pathB_correct {ps : List (String × String)} {a b : String} :
    pathB ps a b = true ↔ Path ps a b := by
  unfold pathB
  rw [List.any_eq_true]
  constructor
  · rintro ⟨⟨u, v⟩, hp, hcond⟩
    simp only [Bool.and_eq_true, Bool.or_eq_true, beq_iff_eq] at hcond
    obtain ⟨rfl, hrest⟩ := hcond
    rcases hrest with rfl | hreach
    · exact Path.single hp
    · have hmem := contains_true.mp hreach
      rcases mem_reachableList.mp hmem with rfl | hpath
      · exact Path.single hp
      · exact Path.cons hp hpath
  · intro hpath
    cases hpath with
    | single h =>
      refine ⟨(a, b), h, ?_⟩
      simp
    | cons h htail =>
      refine ⟨_, h, ?_⟩
      simp only [Bool.and_eq_true, Bool.or_eq_true, beq_iff_eq]
      refine ⟨by simp, Or.inr ?_⟩
      exact contains_true.mpr (mem_reachableList.mpr (Or.inr htail))
theorem path2B_correct {ps : List (String × String)} {a b : String} :
    path2B ps a b = true ↔ Path2 ps a b := by
  unfold path2B Path2
  rw [List.any_eq_true]
  constructor
  · rintro ⟨⟨u, v⟩, hp, hcond⟩
    simp only [Bool.and_eq_true, beq_iff_eq] at hcond
    obtain ⟨rfl, hpath⟩ := hcond
    exact ⟨v, hp, pathB_correct.mp hpath⟩
  · rintro ⟨c, hedge, hpath⟩
    refine ⟨(a, c), hedge, ?_⟩
    simp only [Bool.and_eq_true, beq_iff_eq]
    exact ⟨by simp, pathB_correct.mpr hpath⟩
/-! ### Rank functions for acyclic edge sets

An acyclic finite edge set admits a natural-number rank that strictly
decreases along every edge (rank = number of reachable vertices); this is
the well-founded measure used to reason about the recursive evaluators. -/

theorem rank_lt_of_path {ps : List (String × String)} {rank : String → Nat}
    (hr : ∀ p ∈ ps, rank p.2 < rank p.1) {a b : String} (h : Path ps a b) :
    rank b < rank a := by
  induction h with
  | single h => exact hr _ h
  | cons h _ ih => exact Nat.lt_trans ih (hr _ h)
theorem acyclic_of_rank {ps : List (String × String)} (rank : String → Nat)
    (hr : ∀ p ∈ ps, rank p.2 < rank p.1) : Acyclic ps := by
  intro a ha
  exact Nat.lt_irrefl _ (rank_lt_of_path hr ha)
theorem exists_rank {ps : List (String × String)} (h : Acyclic ps) :
    ∃ rank : String → Nat,
      (∀ p ∈ ps, rank p.2 < rank p.1) ∧ (∀ a, rank a ≤ 2 * ps.length) := by
  classical
  let S : Finset String := (ps.map Prod.fst ++ ps.map Prod.snd).toFinset
  let rank : String → Nat := fun a => (S.filter (fun x => Path ps a x)).card
  have hbound : ∀ a, rank a ≤ 2 * ps.length := by
    intro a
    show (S.filter (fun x => Path ps a x)).card ≤ 2 * ps.length
    have h1 : (S.filter (fun x => Path ps a x)).card ≤ S.card :=
      Finset.card_le_card (Finset.filter_subset _ _)
    have h2 : S.card ≤ (ps.map Prod.fst ++ ps.map Prod.snd).length :=
      (ps.map Prod.fst ++ ps.map Prod.snd).toFinset_card_le
    simp only [List.length_append, List.length_map] at h2
    omega
  refine ⟨rank, ?_, hbound⟩
  rintro ⟨u, v⟩ hp
  have hsub : S.filter (fun x => Path ps v x) ⊆ S.filter (fun x => Path ps u x) := by
    intro x hx
    rw [Finset.mem_filter] at hx ⊢
    exact ⟨hx.1, Path.cons hp hx.2⟩
  have hvS : v ∈ S := by
    apply List.mem_toFinset.mpr
    apply List.mem_append_right
    exact List.mem_map.mpr ⟨(u, v), hp, rfl⟩
  have hvin : v ∈ S.filter (fun x => Path ps u x) := by
    rw [Finset.mem_filter]
    exact ⟨hvS, Path.single hp⟩
  have hvout : v ∉ S.filter (fun x => Path ps v x) := by
    rw [Finset.mem_filter]
    rintro ⟨-, hpath⟩
    exact h v hpath
  exact Finset.card_lt_card ((Finset.ssubset_iff_of_subset hsub).mpr ⟨v, hvin, hvout⟩)
theorem mem_depsFwd {es : List Dependency} {a b : String} :
    b ∈ depsFwd es a ↔ (a, b) ∈ edgePairs es := by
  unfold depsFwd edgePairs
  constructor
  · intro h
    obtain ⟨d, hd, rfl⟩ := List.mem_map.mp h
    have hmem := List.mem_of_mem_filter hd
    have hfrom : d.from_id = a := by
      have := List.of_mem_filter hd
      exact beq_iff_eq.mp this
    exact List.mem_map.mpr ⟨d, hmem, by rw [hfrom]⟩
  · intro h
    obtain ⟨d, hd, heq⟩ := List.mem_map.mp h
    have h1 : d.from_id = a := congrArg Prod.fst heq
    have h2 : d.to_id = b := congrArg Prod.snd heq
    apply List.mem_map.mpr
    refine ⟨d, List.mem_filter.mpr ⟨hd, beq_iff_eq.mpr h1⟩, h2⟩
theorem mem_depsRev {es : List Dependency} {a b : String} :
    b ∈ depsRev es a ↔ (b, a) ∈ edgePairs es := by
  unfold depsRev edgePairs
  constructor
  · intro h
    obtain ⟨d, hd, rfl⟩ := List.mem_map.mp h
    have hmem := List.mem_of_mem_filter hd
    have hto : d.to_id = a := by
      have := List.of_mem_filter hd
      exact beq_iff_eq.mp this
    exact List.mem_map.mpr ⟨d, hmem, by rw [hto]⟩
  · intro h
    obtain ⟨d, hd, heq⟩ := List.mem_map.mp h
    have h1 : d.from_id = b := congrArg Prod.fst heq
    have h2 : d.to_id = a := congrArg Prod.snd heq
    apply List.mem_map.mpr
    refine ⟨d, List.mem_filter.mpr ⟨hd, beq_iff_eq.mpr h2⟩, h1⟩
theorem calcValueFuel_stable (nodes : List Node) (es : List Dependency)
    (rank : String → Nat) (hr : ∀ p ∈ edgePairs es, rank p.2 < rank p.1) :
    ∀ (k : Nat) (nid : String), rank nid ≤ k →
      ∀ f1 f2 : Nat, rank nid < f1 → rank nid < f2 →
        calcValueFuel nodes es f1 nid = calcValueFuel nodes es f2 nid := by
  intro k
  induction k with
  | zero =>
    intro nid hrank f1 f2 h1 h2
    obtain ⟨g1, rfl⟩ := Nat.exists_eq_succ_of_ne_zero (Nat.pos_iff_ne_zero.mp (Nat.lt_of_le_of_lt (Nat.zero_le _) h1))
    obtain ⟨g2, rfl⟩ := Nat.exists_eq_succ_of_ne_zero (Nat.pos_iff_ne_zero.mp (Nat.lt_of_le_of_lt (Nat.zero_le _) h2))
    simp only [calcValueFuel]
    cases findNode nodes nid with
    | none => rfl
    | some node =>
      have hmap : (depsFwd es nid).map (fun d => calcValueFuel nodes es g1 d)
          = (depsFwd es nid).map (fun d => calcValueFuel nodes es g2 d) := by
        apply List.map_congr_left
        intro d hd
        have hlt : rank d < rank nid := hr _ (mem_depsFwd.mp hd)
        omega
      simp only [hmap]
  | succ m ih =>
    intro nid hrank f1 f2 h1 h2
    obtain ⟨g1, rfl⟩ := Nat.exists_eq_succ_of_ne_zero (Nat.pos_iff_ne_zero.mp (Nat.lt_of_le_of_lt (Nat.zero_le _) h1))
    obtain ⟨g2, rfl⟩ := Nat.exists_eq_succ_of_ne_zero (Nat.pos_iff_ne_zero.mp (Nat.lt_of_le_of_lt (Nat.zero_le _) h2))
    simp only [calcValueFuel]
    cases findNode nodes nid with
    | none => rfl
    | some node =>
      have hmap : (depsFwd es nid).map (fun d => calcValueFuel nodes es g1 d)
          = (depsFwd es nid).map (fun d => calcValueFuel nodes es g2 d) := by
        apply List.map_congr_left
        intro d hd
        have hlt : rank d < rank nid := hr _ (mem_depsFwd.mp hd)
        exact ih d (by omega) g1 g2 (by omega) (by omega)
      simp only [hmap]
theorem edgePairs_length (es : List Dependency) :
    (edgePairs es).length = es.length := List.length_map _ _
/-- Fixed-point equation of the value calculator on acyclic snapshots. -/
theorem calcValue_eq {nodes : List Node} {es : List Dependency}
    (hA : Acyclic (edgePairs es)) (nid : String) :
    calcValue nodes es nid =
      match findNode nodes nid with
      | none => false
      | some node =>
        let dep_values := (depsFwd es nid).map (calcValue nodes es)
        let deps_clear := calculateGateLogic node.node_type dep_values
        if node.node_type == "Task" then (node.completed.getD false) && deps_clear
        else deps_clear := by
  obtain ⟨rank, hr, hb⟩ := exists_rank hA
  have hbound : ∀ a, rank a ≤ 2 * es.length := by
    intro a
    have := hb a
    rwa [edgePairs_length] at this
  unfold calcValue evalFuel
  simp only [calcValueFuel]
  cases findNode nodes nid with
  | none => rfl
  | some node =>
    have hmap : (depsFwd es nid).map (fun d => calcValueFuel nodes es (2 * es.length) d)
        = (depsFwd es nid).map (fun d => calcValueFuel nodes es (2 * es.length + 1) d) := by
      apply List.map_congr_left
      intro d hd
      have hlt : rank d < rank nid := hr _ (mem_depsFwd.mp hd)
      have h1 := hbound nid
      exact calcValueFuel_stable nodes es rank hr (rank d) d (Nat.le_refl _) _ _
        (by omega) (by omega)
    simp only [hmap]
    rfl
theorem calcDueFuel_stable (nodes : List Node) (es : List Dependency)
    (rank : String → Nat)
    (hr : ∀ p ∈ edgePairs es, rank p.1 < rank p.2) :
    ∀ (k : Nat) (nid : String), rank nid ≤ k →
      ∀ f1 f2 : Nat, rank nid < f1 → rank nid < f2 →
        calcDueFuel nodes es f1 nid = calcDueFuel nodes es f2 nid := by
  intro k
  induction k with
  | zero =>
    intro nid hrank f1 f2 h1 h2
    obtain ⟨g1, rfl⟩ := Nat.exists_eq_succ_of_ne_zero (Nat.pos_iff_ne_zero.mp (Nat.lt_of_le_of_lt (Nat.zero_le _) h1))
    obtain ⟨g2, rfl⟩ := Nat.exists_eq_succ_of_ne_zero (Nat.pos_iff_ne_zero.mp (Nat.lt_of_le_of_lt (Nat.zero_le _) h2))
    simp only [calcDueFuel]
    have hmap : (depsRev es nid).map (fun d => calcDueFuel nodes es g1 d)
        = (depsRev es nid).map (fun d => calcDueFuel nodes es g2 d) := by
      apply List.map_congr_left
      intro d hd
      have hlt : rank d < rank nid := hr _ (mem_depsRev.mp hd)
      omega
    simp only [hmap]
  | succ m ih =>
    intro nid hrank f1 f2 h1 h2
    obtain ⟨g1, rfl⟩ := Nat.exists_eq_succ_of_ne_zero (Nat.pos_iff_ne_zero.mp (Nat.lt_of_le_of_lt (Nat.zero_le _) h1))
    obtain ⟨g2, rfl⟩ := Nat.exists_eq_succ_of_ne_zero (Nat.pos_iff_ne_zero.mp (Nat.lt_of_le_of_lt (Nat.zero_le _) h2))
    simp only [calcDueFuel]
    have hmap : (depsRev es nid).map (fun d => calcDueFuel nodes es g1 d)
        = (depsRev es nid).map (fun d => calcDueFuel nodes es g2 d) := by
      apply List.map_congr_left
      intro d hd
      have hlt : rank d < rank nid := hr _ (mem_depsRev.mp hd)
      exact ih d (by omega) g1 g2 (by omega) (by omega)
    simp only [hmap]
/-- An acyclic snapshot admits a rank increasing along the edges (used for
the due calculator, which walks edges backwards). -/
theorem exists_corank {es : List Dependency} (hA : Acyclic (edgePairs es)) :
    ∃ rank : String → Nat,
      (∀ p ∈ edgePairs es, rank p.1 < rank p.2) ∧ (∀ a, rank a ≤ 2 * es.length) := by
  obtain ⟨rank, hr, hb⟩ := exists_rank (acyclic_swap hA)
  refine ⟨rank, ?_, ?_⟩
  · intro p hp
    have hswap : (p.2, p.1) ∈ (edgePairs es).map Prod.swap := by
      apply List.mem_map.mpr
      exact ⟨p, hp, rfl⟩
    exact hr _ hswap
  · intro a
    have := hb a
    rwa [List.length_map, edgePairs_length] at this
/-- Fixed-point equation of the due calculator on acyclic snapshots. -/
theorem calcDue_eq {nodes : List Node} {es : List Dependency}
    (hA : Acyclic (edgePairs es)) (nid : String) :
    calcDue nodes es nid =
      ((match findNode nodes nid with
        | some n => pyTruthyDue n.due
        | none => []) ++
       ((depsRev es nid).map (calcDue nodes es)).filterMap pyFilterDue).min? := by
  obtain ⟨rank, hr, hb⟩ := exists_corank hA
  unfold calcDue evalFuel
  simp only [calcDueFuel]
  have hmap : (depsRev es nid).map (fun d => calcDueFuel nodes es (2 * es.length) d)
      = (depsRev es nid).map (fun d => calcDueFuel nodes es (2 * es.length + 1) d) := by
    apply List.map_congr_left
    intro d hd
    have hlt : rank d < rank nid := hr _ (mem_depsRev.mp hd)
    have hnB := hb nid
    exact calcDueFuel_stable nodes es rank hr (rank d) d
      (Nat.le_refl _) _ _ (by omega) (by omega)
  simp only [hmap]
  rfl
theorem insertDesc_perm (n : Node) (l : List Node) : (insertDesc n l).Perm (n :: l) := by
  induction l with
  | nil => exact List.Perm.refl _
  | cons m rest ih =>
    unfold insertDesc
    by_cases h : pyKey m < pyKey n
    · rw [if_pos h]
    · rw [if_neg h]
      exact (ih.cons m).trans (List.Perm.swap n m rest)

theorem sortAux_perm :
    ∀ (l acc : List Node),
      (l.foldl (fun acc n => insertDesc n acc) acc).Perm (acc ++ l) := by
  intro l
  induction l with
  | nil =>
    intro acc
    rw [List.append_nil]
    exact List.Perm.refl _
  | cons n t ih =>
    intro acc
    show (t.foldl (fun acc n => insertDesc n acc) (insertDesc n acc)).Perm _
    refine (ih (insertDesc n acc)).trans ?_
    refine (((insertDesc_perm n acc).append_right t).trans ?_)
    exact List.perm_middle.symm

theorem sortByUpdated_perm (l : List Node) : (sortByUpdated l).Perm l :=
  sortAux_perm l []

theorem findNode_eq_none_iff {l : List Node} {q : String} :
    findNode l q = none ↔ ∀ n ∈ l, n.id ≠ q := by
  unfold findNode
  rw [List.find?_eq_none]
  constructor
  · intro h n hn
    exact fun he => h n hn (beq_iff_eq.mpr he)
  · intro h n hn hb
    exact h n hn (beq_iff_eq.mp hb)

theorem findNode_some_mem {l : List Node} {q : String} {n : Node}
    (h : findNode l q = some n) : n ∈ l ∧ n.id = q := by
  unfold findNode at h
  have hp := List.find?_some h
  exact ⟨List.mem_of_find?_eq_some h, beq_iff_eq.mp hp⟩

theorem findNode_eq_some_of {l : List Node} {q : String} {n : Node}
    (hnd : (l.map Node.id).Nodup) (hn : n ∈ l) (hid : n.id = q) :
    findNode l q = some n := by
  induction l with
  | nil => cases hn
  | cons m t ih =>
    rw [List.map_cons, List.nodup_cons] at hnd
    unfold findNode
    rw [List.find?_cons]
    cases hq : (m.id == q) with
    | true =>
      rcases List.mem_cons.mp hn with rfl | hmem
      · rfl
      · exfalso
        apply hnd.1
        rw [beq_iff_eq.mp hq, ← hid]
        exact List.mem_map_of_mem Node.id hmem
    | false =>
      rcases List.mem_cons.mp hn with rfl | hmem
      · rw [beq_iff_eq.mpr hid] at hq
        cases hq
      · exact ih hnd.2 hmem

theorem nodup_of_perm {l l2 : List Node} (hperm : l.Perm l2)
    (hnd : (l.map Node.id).Nodup) : (l2.map Node.id).Nodup :=
  ((hperm.map Node.id).nodup_iff).mp hnd

theorem findNode_perm {l l2 : List Node} (hperm : l.Perm l2)
    (hnd : (l.map Node.id).Nodup) (q : String) :
    findNode l q = findNode l2 q := by
  cases h : findNode l q with
  | some n =>
    obtain ⟨hmem, hid⟩ := findNode_some_mem h
    exact (findNode_eq_some_of (nodup_of_perm hperm hnd) (hperm.mem_iff.mp hmem) hid).symm
  | none =>
    symm
    rw [findNode_eq_none_iff]
    intro n hn
    exact findNode_eq_none_iff.mp h n (hperm.mem_iff.mpr hn)

theorem calcValueFuel_congr {l l2 : List Node} {es : List Dependency}
    (h : ∀ q, findNode l q = findNode l2 q) :
    ∀ (f : Nat) (nid : String), calcValueFuel l es f nid = calcValueFuel l2 es f nid := by
  intro f
  induction f with
  | zero => intro nid; rfl
  | succ g ih =>
    intro nid
    simp only [calcValueFuel]
    rw [h nid]
    cases findNode l2 nid with
    | none => rfl
    | some node =>
      have hmap : (depsFwd es nid).map (fun d => calcValueFuel l es g d)
          = (depsFwd es nid).map (fun d => calcValueFuel l2 es g d) :=
        List.map_congr_left (fun d _ => ih d)
      simp only [hmap]

theorem calcDueFuel_congr {l l2 : List Node} {es : List Dependency}
    (h : ∀ q, findNode l q = findNode l2 q) :
    ∀ (f : Nat) (nid : String), calcDueFuel l es f nid = calcDueFuel l2 es f nid := by
  intro f
  induction f with
  | zero => intro nid; rfl
  | succ g ih =>
    intro nid
    simp only [calcDueFuel]
    rw [h nid]
    have hmap : (depsRev es nid).map (fun d => calcDueFuel l es g d)
        = (depsRev es nid).map (fun d => calcDueFuel l2 es g d) :=
      List.map_congr_left (fun d _ => ih d)
    simp only [hmap]

theorem calcValue_congr {l l2 : List Node} {es : List Dependency}
    (h : ∀ q, findNode l q = findNode l2 q) (nid : String) :
    calcValue l es nid = calcValue l2 es nid :=
  calcValueFuel_congr h _ nid

theorem calcDue_congr {l l2 : List Node} {es : List Dependency}
    (h : ∀ q, findNode l q = findNode l2 q) (nid : String) :
    calcDue l es nid = calcDue l2 es nid :=
  calcDueFuel_congr h _ nid

theorem hasCyclesB_false_of_acyclic {nodes : List Node} {es : List Dependency}
    (hA : Acyclic (edgePairs es)) : hasCyclesB nodes es = false := by
  unfold hasCyclesB
  rw [List.any_eq_false]
  intro n hn
  cases hb : pathB (edgePairs es) n.id n.id with
  | false => simp
  | true => exact absurd (pathB_correct.mp hb) (hA n.id)

theorem hasCyclesB_true_of_cycle {nodes : List Node} {es : List Dependency}
    (hwf : ∀ d ∈ es, (∃ n ∈ nodes, n.id = d.from_id) ∧ (∃ n ∈ nodes, n.id = d.to_id))
    (hcyc : ∃ a, Path (edgePairs es) a a) : hasCyclesB nodes es = true := by
  obtain ⟨a, ha⟩ := hcyc
  obtain ⟨p, hp, hp1⟩ := path_src_mem ha
  obtain ⟨d, hd, hde⟩ := List.mem_map.mp hp
  obtain ⟨n, hn, hnid⟩ := (hwf d hd).1
  unfold hasCyclesB
  rw [List.any_eq_true]
  refine ⟨n, hn, ?_⟩
  apply pathB_correct.mpr
  have : n.id = a := by
    rw [hnid]
    have : d.from_id = p.1 := by rw [← hde]
    rw [this, hp1]
  rw [this]
  exact ha

/-- Claim C2: on an acyclic snapshot, for every node evaluated by the bulk
listing, `deps_clear` is the gate logic over the calculated values of the
nodes it depends on, `calculated_value` is `completed AND deps_clear` for a
Task and `deps_clear` for any other kind, and `is_actionable` is true
exactly when the node is a Task, `completed` is not truthy, and
`deps_clear` holds (hence false for every gate node). -/
theorem list_nodes_value_spec (nodes : List Node) (es : List Dependency)
    (hA : Acyclic (edgePairs es)) (hnd : (nodes.map Node.id).Nodup) :
    ∀ e ∈ (listNodes nodes es).1,
      e.deps_clear = some (calculateGateLogic e.node.node_type
        ((depsFwd es e.node.id).map (calcValue nodes es))) ∧
      e.calculated_value = some (calcValue nodes es e.node.id) ∧
      calcValue nodes es e.node.id =
        (if e.node.node_type == "Task"
         then (e.node.completed.getD false) && calculateGateLogic e.node.node_type
            ((depsFwd es e.node.id).map (calcValue nodes es))
         else calculateGateLogic e.node.node_type
            ((depsFwd es e.node.id).map (calcValue nodes es))) ∧
      e.is_actionable = some ((e.node.node_type == "Task")
        && !(e.node.completed.getD false)
        && calculateGateLogic e.node.node_type
            ((depsFwd es e.node.id).map (calcValue nodes es))) := by
  intro e he
  have hcy := @hasCyclesB_false_of_acyclic nodes _ hA
  unfold listNodes at he
  rw [hcy] at he
  simp only [Bool.false_eq_true, if_false] at he
  obtain ⟨n, hn, rfl⟩ := List.mem_map.mp he
  have hperm := sortByUpdated_perm nodes
  have hfind : ∀ q, findNode (sortByUpdated nodes) q = findNode nodes q :=
    findNode_perm hperm (nodup_of_perm hperm.symm hnd)
  have hcalc : ∀ q, calcValue (sortByUpdated nodes) es q = calcValue nodes es q :=
    calcValue_congr hfind
  have hmap : ∀ q, (depsFwd es q).map (calcValue (sortByUpdated nodes) es)
      = (depsFwd es q).map (calcValue nodes es) :=
    fun q => List.map_congr_left (fun d _ => hcalc d)
  have hmem : n ∈ nodes := hperm.mem_iff.mp hn
  have hfound : findNode nodes n.id = some n := findNode_eq_some_of hnd hmem rfl
  refine ⟨?_, ?_, ?_, ?_⟩
  · show some (depsClearCalc (sortByUpdated nodes) es n) = _
    unfold depsClearCalc
    rw [hmap]
    rfl
  · show some (calcValue (sortByUpdated nodes) es n.id) = _
    rw [hcalc]
    rfl
  · have heq := @calcValue_eq nodes _ hA n.id
    rw [hfound] at heq
    exact heq
  · show some (isActionableCalc (sortByUpdated nodes) es n) = _
    unfold isActionableCalc depsClearCalc
    rw [hmap]
    rfl

/-- Witness for `list_nodes_value_spec` at the sample store, instantiated at
the entry of Task `B`. -/
theorem list_nodes_value_spec_witness :
    (enrichNode (sortByUpdated sampleNodes) sampleDeps sampleB).deps_clear
      = some (calculateGateLogic sampleB.node_type
          ((depsFwd sampleDeps sampleB.id).map (calcValue sampleNodes sampleDeps))) ∧
    (enrichNode (sortByUpdated sampleNodes) sampleDeps sampleB).calculated_value
      = some (calcValue sampleNodes sampleDeps sampleB.id) ∧
    calcValue sampleNodes sampleDeps sampleB.id =
      (if sampleB.node_type == "Task"
       then (sampleB.completed.getD false) && calculateGateLogic sampleB.node_type
          ((depsFwd sampleDeps sampleB.id).map (calcValue sampleNodes sampleDeps))
       else calculateGateLogic sampleB.node_type
          ((depsFwd sampleDeps sampleB.id).map (calcValue sampleNodes sampleDeps))) ∧
    (enrichNode (sortByUpdated sampleNodes) sampleDeps sampleB).is_actionable
      = some ((sampleB.node_type == "Task")
        && !(sampleB.completed.getD false)
        && calculateGateLogic sampleB.node_type
            ((depsFwd sampleDeps sampleB.id).map (calcValue sampleNodes sampleDeps))) :=
  list_nodes_value_spec sampleNodes sampleDeps
    (acyclic_of_rank sampleRank (by decide)) (by decide)
    (enrichNode (sortByUpdated sampleNodes) sampleDeps sampleB) (by decide)

/-- Claim C8: when the snapshot contains a cycle, both the bulk listing and
the single-node fetch skip evaluation: every derived field stays `none` for
every node, the bulk listing reports `has_cycles = true`, and (being total
functions) neither read raises. -/
theorem cycle_degrades (nodes : List Node) (es : List Dependency)
    (hwf : ∀ d ∈ es, (∃ n ∈ nodes, n.id = d.from_id) ∧ (∃ n ∈ nodes, n.id = d.to_id))
    (hcyc : ∃ a, Path (edgePairs es) a a) :
    (listNodes nodes es).2.2 = true ∧
    (∀ e ∈ (listNodes nodes es).1,
      e.calculated_value = none ∧ e.calculated_due = none ∧
      e.deps_clear = none ∧ e.is_actionable = none) ∧
    (∀ nid e, getNode nodes es nid = some e →
      e.calculated_value = none ∧ e.calculated_due = none ∧
      e.deps_clear = none ∧ e.is_actionable = none) := by
  have hb := hasCyclesB_true_of_cycle hwf hcyc
  refine ⟨?_, ?_, ?_⟩
  · unfold listNodes
    rw [hb]
    rfl
  · intro e he
    unfold listNodes at he
    rw [hb] at he
    simp only [if_true] at he
    obtain ⟨n, hn, rfl⟩ := List.mem_map.mp he
    exact ⟨rfl, rfl, rfl, rfl⟩
  · intro nid e hget
    unfold getNode at hget
    cases hf : findNode nodes nid with
    | none => rw [hf] at hget; cases hget
    | some n =>
      rw [hf] at hget
      simp only [hb, if_true] at hget
      cases hget
      exact ⟨rfl, rfl, rfl, rfl⟩

/-- Witness for `cycle_degrades` at the two-node cycle `X -> Y -> X`. -/
theorem cycle_degrades_witness :
    (listNodes cycNodes cycDeps).2.2 = true ∧
    (∀ e ∈ (listNodes cycNodes cycDeps).1,
      e.calculated_value = none ∧ e.calculated_due = none ∧
      e.deps_clear = none ∧ e.is_actionable = none) ∧
    (∀ nid e, getNode cycNodes cycDeps nid = some e →
      e.calculated_value = none ∧ e.calculated_due = none ∧
      e.deps_clear = none ∧ e.is_actionable = none) :=
  cycle_degrades cycNodes cycDeps (by decide)
    ⟨"X", Path.cons (b := "Y") (by decide) (Path.single (by decide))⟩

theorem path_to_decomp {ps : List (String × String)} {x n : String} :
    Path ps x n ↔ ∃ d, (d, n) ∈ ps ∧ (x = d ∨ Path ps x d) := by
  constructor
  · intro h
    induction h with
    | single h => exact ⟨_, h, Or.inl rfl⟩
    | cons h _ ih =>
      obtain ⟨d, hd, hrest⟩ := ih
      rcases hrest with heq | hpath
      · refine ⟨d, hd, Or.inr ?_⟩
        rw [← heq]
        exact Path.single h
      · exact ⟨d, hd, Or.inr (Path.cons h hpath)⟩
  · rintro ⟨d, hd, hrest⟩
    rcases hrest with rfl | hpath
    · exact Path.single hd
    · exact path_snoc hpath hd

theorem calcDueFuel_ne_zero (nodes : List Node) (es : List Dependency) :
    ∀ (f : Nat) (nid : String), calcDueFuel nodes es f nid ≠ some 0 := by
  intro f nid
  cases f with
  | zero => simp [calcDueFuel]
  | succ g =>
    simp only [calcDueFuel]
    intro hmin
    have hmem : (0 : Int) ∈ _ := List.min?_mem (fun a b => min_choice a b) hmin
    rcases List.mem_append.mp hmem with h | h
    · revert h
      cases hf : findNode nodes nid with
      | none => simp
      | some m =>
        simp only
        unfold pyTruthyDue
        cases m.due with
        | none => simp
        | some d =>
          simp only
          by_cases hd : d = 0
          · rw [if_pos hd]
            simp
          · rw [if_neg hd]
            intro hmem0
            exact hd (List.mem_singleton.mp hmem0).symm
    · obtain ⟨o, _, ho⟩ := List.mem_filterMap.mp h
      revert ho
      unfold pyFilterDue
      cases o with
      | none => simp
      | some v =>
        simp only
        by_cases hv : v = 0
        · rw [if_pos hv]
          simp
        · rw [if_neg hv]
          intro hsome
          exact hv (Option.some.inj hsome)

theorem calcDue_ne_zero (nodes : List Node) (es : List Dependency) (nid : String) :
    calcDue nodes es nid ≠ some 0 :=
  calcDueFuel_ne_zero nodes es _ nid

/-- The due calculator returns `none` exactly when no node among `nid` and
its transitive dependents (nodes reaching `nid`) has a truthy due value. -/
theorem calcDue_none_iff {nodes : List Node} {es : List Dependency}
    (hA : Acyclic (edgePairs es)) (nid : String) :
    calcDue nodes es nid = none ↔
      (∀ x, (x = nid ∨ Path (edgePairs es) x nid) →
        ∀ m, findNode nodes x = some m → pyTruthyDue m.due = []) := by
  obtain ⟨rank, hr, hb⟩ := exists_corank hA
  suffices h : ∀ (k : Nat) (q : String), rank q ≤ k →
      (calcDue nodes es q = none ↔
        (∀ x, (x = q ∨ Path (edgePairs es) x q) →
          ∀ m, findNode nodes x = some m → pyTruthyDue m.due = [])) by
    exact h (rank nid) nid (Nat.le_refl _)
  intro k
  induction k with
  | zero =>
    intro q hq
    have hnone : depsRev es q = [] := by
      cases hdeps : depsRev es q with
      | nil => rfl
      | cons d t =>
        have hd : d ∈ depsRev es q := by rw [hdeps]; exact List.mem_cons_self d t
        have hlt : rank d < rank q := hr _ (mem_depsRev.mp hd)
        omega
    rw [calcDue_eq hA q, hnone]
    simp only [List.map_nil, List.filterMap_nil, List.append_nil]
    rw [List.min?_eq_none_iff]
    constructor
    · intro hown x hx m hm
      rcases hx with rfl | hpath
      · rw [hm] at hown
        exact hown
      · obtain ⟨d, hd, -⟩ := path_to_decomp.mp hpath
        have : d ∈ depsRev es q := mem_depsRev.mpr hd
        rw [hnone] at this
        cases this
    · intro hall
      cases hm : findNode nodes q with
      | none => rfl
      | some m => exact hall q (Or.inl rfl) m hm
  | succ j ih =>
    intro q hq
    rw [calcDue_eq hA q]
    rw [List.min?_eq_none_iff, List.append_eq_nil]
    constructor
    · rintro ⟨hown, hrest⟩ x hx m hm
      rcases hx with rfl | hpath
      · rw [hm] at hown
        exact hown
      · obtain ⟨d, hd, hrd⟩ := path_to_decomp.mp hpath
        have hdm : d ∈ depsRev es q := mem_depsRev.mpr hd
        have hdn : calcDue nodes es d = none := by
          have h1 : pyFilterDue (calcDue nodes es d) = none := by
            have := List.filterMap_eq_nil_iff.mp hrest (calcDue nodes es d)
              (List.mem_map.mpr ⟨d, hdm, rfl⟩)
            exact this
          revert h1
          unfold pyFilterDue
          cases hc : calcDue nodes es d with
          | none => intro _; rfl
          | some v =>
            simp only
            by_cases hv : v = 0
            · intro _
              exact absurd (hv ▸ hc) (calcDue_ne_zero nodes es d)
            · rw [if_neg hv]
              intro hcontra
              cases hcontra
        have hrank : rank d ≤ j := by
          have hlt : rank d < rank q := hr _ (mem_depsRev.mp hdm)
          omega
        have hiff := ih d hrank
        rw [hdn] at hiff
        have hforall := hiff.mp rfl
        rcases hrd with rfl | hpath2
        · exact hforall x (Or.inl rfl) m hm
        · exact hforall x (Or.inr hpath2) m hm
    · intro hall
      constructor
      · cases hm : findNode nodes q with
        | none => rfl
        | some m => exact hall q (Or.inl rfl) m hm
      · rw [List.filterMap_eq_nil_iff]
        intro o ho
        obtain ⟨d, hdm, rfl⟩ := List.mem_map.mp ho
        have hrank : rank d ≤ j := by
          have hlt : rank d < rank q := hr _ (mem_depsRev.mp hdm)
          omega
        have hdn : calcDue nodes es d = none := by
          rw [ih d hrank]
          intro x hx m hm
          have hedge : (d, q) ∈ edgePairs es := mem_depsRev.mp hdm
          rcases hx with rfl | hpath
          · exact hall x (Or.inr (Path.single hedge)) m hm
          · exact hall x (Or.inr (path_snoc hpath hedge)) m hm
        rw [hdn]
        rfl

/-- Claim C4 counterexample: node `A` has no due date and no outgoing
dependency edges, so under the claim (minimum over the node itself and the
nodes reachable along outgoing edges) its `calculated_due` would be null,
but the bulk listing reports `5`: the code passes the reverse index
`deps_rev` to `_build_due_calculator`, so the minimum is taken over the
nodes that depend on `A` (here `B` with due 5), not over the nodes `A`
depends on. -/
theorem calculated_due_counterexample :
    sampleA.due = none ∧ depsFwd sampleDeps sampleA.id = [] ∧
    enrichNode (sortByUpdated sampleNodes) sampleDeps sampleA
      ∈ (listNodes sampleNodes sampleDeps).1 ∧
    (enrichNode (sortByUpdated sampleNodes) sampleDeps sampleA).calculated_due = some 5 := by
  decide

/-- Claim C4 (amended): for every node in the bulk listing,
`calculated_due` is the minimum of the node's own due date (when set and
nonzero — Python truthiness drops a zero due) and the recursively computed
`calculated_due` of the nodes that directly depend on it (incoming edges,
followed transitively), and it is null exactly when no node among it and
its transitive dependents has a nonzero due set. -/
theorem list_nodes_due_spec (nodes : List Node) (es : List Dependency)
    (hA : Acyclic (edgePairs es)) (hnd : (nodes.map Node.id).Nodup) :
    ∀ e ∈ (listNodes nodes es).1,
      e.calculated_due = calcDue nodes es e.node.id ∧
      calcDue nodes es e.node.id =
        ((match findNode nodes e.node.id with
          | some m => pyTruthyDue m.due
          | none => []) ++
         ((depsRev es e.node.id).map (calcDue nodes es)).filterMap pyFilterDue).min? ∧
      (calcDue nodes es e.node.id = none ↔
        (∀ x, (x = e.node.id ∨ Path (edgePairs es) x e.node.id) →
          ∀ m, findNode nodes x = some m → pyTruthyDue m.due = [])) := by
  intro e he
  have hcy := @hasCyclesB_false_of_acyclic nodes _ hA
  unfold listNodes at he
  rw [hcy] at he
  simp only [Bool.false_eq_true, if_false] at he
  obtain ⟨n, hn, rfl⟩ := List.mem_map.mp he
  have hperm := sortByUpdated_perm nodes
  have hfind : ∀ q, findNode (sortByUpdated nodes) q = findNode nodes q :=
    findNode_perm hperm (nodup_of_perm hperm.symm hnd)
  refine ⟨?_, calcDue_eq hA n.id, calcDue_none_iff hA n.id⟩
  show calcDue (sortByUpdated nodes) es n.id = _
  rw [calcDue_congr hfind]
  rfl

/-- Witness for `list_nodes_due_spec` at the sample store, instantiated at
the entry of Task `B` (due 5, nobody depends on it). -/
theorem list_nodes_due_spec_witness :
    (enrichNode (sortByUpdated sampleNodes) sampleDeps sampleB).calculated_due
      = calcDue sampleNodes sampleDeps sampleB.id ∧
    calcDue sampleNodes sampleDeps sampleB.id =
      ((match findNode sampleNodes sampleB.id with
        | some m => pyTruthyDue m.due
        | none => []) ++
       ((depsRev sampleDeps sampleB.id).map (calcDue sampleNodes sampleDeps)).filterMap
         pyFilterDue).min? ∧
    (calcDue sampleNodes sampleDeps sampleB.id = none ↔
      (∀ x, (x = sampleB.id ∨ Path (edgePairs sampleDeps) x sampleB.id) →
        ∀ m, findNode sampleNodes x = some m → pyTruthyDue m.due = [])) :=
  list_nodes_due_spec sampleNodes sampleDeps
    (acyclic_of_rank sampleRank (by decide)) (by decide)
    (enrichNode (sortByUpdated sampleNodes) sampleDeps sampleB) (by decide)

theorem mem_closureIds {es : List Dependency} {s x : String} :
    x ∈ closureIds es s ↔ InClosure es s x :=
  mem_reachableList

theorem inClosure_has_node {nodes : List Node} {es : List Dependency} {s x : String} {n : Node}
    (hwf : ∀ d ∈ es, (∃ m ∈ nodes, m.id = d.from_id) ∧ (∃ m ∈ nodes, m.id = d.to_id))
    (hn : findNode nodes s = some n) (hx : InClosure es s x) :
    ∃ m ∈ nodes, m.id = x := by
  rcases hx with rfl | hpath
  · obtain ⟨hmem, hid⟩ := findNode_some_mem hn
    exact ⟨n, hmem, hid⟩
  · obtain ⟨p, hp, hp2⟩ := path_dst_mem hpath
    obtain ⟨d, hd, hde⟩ := List.mem_map.mp hp
    obtain ⟨m, hm, hmid⟩ := (hwf d hd).2
    refine ⟨m, hm, ?_⟩
    rw [hmid, ← hp2, ← hde]

theorem mem_gnClosureIdList {nodes : List Node} {es : List Dependency} {s x : String} {n : Node}
    (hwf : ∀ d ∈ es, (∃ m ∈ nodes, m.id = d.from_id) ∧ (∃ m ∈ nodes, m.id = d.to_id))
    (hn : findNode nodes s = some n) :
    x ∈ gnClosureIdList nodes es s ↔ InClosure es s x := by
  unfold gnClosureIdList gnClosureNodes
  constructor
  · intro h
    obtain ⟨m, hm, rfl⟩ := List.mem_map.mp h
    have hf := List.of_mem_filter hm
    exact mem_closureIds.mp (contains_true.mp hf)
  · intro h
    obtain ⟨m, hm, hmid⟩ := inClosure_has_node hwf hn h
    apply List.mem_map.mpr
    refine ⟨m, List.mem_filter.mpr ⟨hm, ?_⟩, hmid⟩
    apply contains_true.mpr
    rw [hmid]
    exact mem_closureIds.mpr h

theorem inClosure_step {es : List Dependency} {s x y : String}
    (hx : InClosure es s x) (hedge : (x, y) ∈ edgePairs es) : InClosure es s y := by
  rcases hx with rfl | hpath
  · exact Or.inr (Path.single hedge)
  · exact Or.inr (path_snoc hpath hedge)

theorem edge_kept {nodes : List Node} {es : List Dependency} {s : String} {n : Node}
    {d : Dependency}
    (hwf : ∀ d ∈ es, (∃ m ∈ nodes, m.id = d.from_id) ∧ (∃ m ∈ nodes, m.id = d.to_id))
    (hn : findNode nodes s = some n)
    (hx : InClosure es s d.from_id) (hd : d ∈ es) :
    ((gnClosureIdList nodes es s).contains d.from_id
      && (gnClosureIdList nodes es s).contains d.to_id) = true := by
  have hedge : (d.from_id, d.to_id) ∈ edgePairs es :=
    List.mem_map.mpr ⟨d, hd, rfl⟩
  have hto : InClosure es s d.to_id := inClosure_step hx hedge
  rw [contains_true.mpr ((mem_gnClosureIdList hwf hn).mpr hx),
    contains_true.mpr ((mem_gnClosureIdList hwf hn).mpr hto)]
  rfl

theorem depsFwd_restrict {nodes : List Node} {es : List Dependency} {s x : String} {n : Node}
    (hwf : ∀ d ∈ es, (∃ m ∈ nodes, m.id = d.from_id) ∧ (∃ m ∈ nodes, m.id = d.to_id))
    (hn : findNode nodes s = some n) (hx : InClosure es s x) :
    depsFwd (gnRelevantDeps nodes es s) x = depsFwd es x := by
  unfold depsFwd gnRelevantDeps
  rw [List.filter_filter]
  apply congrArg
  apply List.filter_congr
  intro d hd
  cases hfrom : (d.from_id == x) with
  | false => simp
  | true =>
    have hxd : InClosure es s d.from_id := by
      rw [beq_iff_eq.mp hfrom]
      exact hx
    rw [edge_kept hwf hn hxd hd]
    rfl

theorem findNode_filter_sub {nodes : List Node} {P : Node → Bool} {q : String} {m : Node}
    (hnd : (nodes.map Node.id).Nodup) (hm : findNode nodes q = some m) (hP : P m = true) :
    findNode (nodes.filter P) q = some m := by
  obtain ⟨hmem, hid⟩ := findNode_some_mem hm
  apply findNode_eq_some_of
  · have hsub : (nodes.filter P).map Node.id |>.Sublist (nodes.map Node.id) :=
      (List.filter_sublist _).map Node.id
    exact hnd.sublist hsub
  · exact List.mem_filter.mpr ⟨hmem, hP⟩
  · exact hid

theorem findNode_gnClosure {nodes : List Node} {es : List Dependency} {s x : String} {n : Node}
    (hwf : ∀ d ∈ es, (∃ m ∈ nodes, m.id = d.from_id) ∧ (∃ m ∈ nodes, m.id = d.to_id))
    (hnd : (nodes.map Node.id).Nodup)
    (hn : findNode nodes s = some n) (hx : InClosure es s x) :
    findNode (gnClosureNodes nodes es s) x = findNode nodes x := by
  obtain ⟨m, hm, hmid⟩ := inClosure_has_node hwf hn hx
  have hfm : findNode nodes x = some m := findNode_eq_some_of hnd hm hmid
  rw [hfm]
  apply findNode_filter_sub hnd hfm
  apply contains_true.mpr
  rw [hmid]
  exact mem_closureIds.mpr hx

theorem edgePairs_rel_sub {nodes : List Node} {es : List Dependency} {s : String} :
    ∀ p ∈ edgePairs (gnRelevantDeps nodes es s), p ∈ edgePairs es := by
  intro p hp
  obtain ⟨d, hd, rfl⟩ := List.mem_map.mp hp
  exact List.mem_map.mpr ⟨d, List.mem_of_mem_filter hd, rfl⟩

theorem acyclic_rel {nodes : List Node} {es : List Dependency} {s : String}
    (hA : Acyclic (edgePairs es)) : Acyclic (edgePairs (gnRelevantDeps nodes es s)) :=
  fun a ha => hA a (path_mono edgePairs_rel_sub ha)

theorem edge_in_rel {nodes : List Node} {es : List Dependency} {s x y : String} {n : Node}
    (hwf : ∀ d ∈ es, (∃ m ∈ nodes, m.id = d.from_id) ∧ (∃ m ∈ nodes, m.id = d.to_id))
    (hn : findNode nodes s = some n)
    (hx : InClosure es s x) (hedge : (x, y) ∈ edgePairs es) :
    (x, y) ∈ edgePairs (gnRelevantDeps nodes es s) := by
  obtain ⟨dep, hdep, heq⟩ := List.mem_map.mp hedge
  have hfrom : dep.from_id = x := congrArg Prod.fst heq
  have hkept := edge_kept hwf hn (by rw [hfrom]; exact hx) hdep
  exact List.mem_map.mpr ⟨dep, List.mem_filter.mpr ⟨hdep, hkept⟩, heq⟩

theorem calcValueFuel_restrict {nodes : List Node} {es : List Dependency} {s : String} {n : Node}
    (hwf : ∀ d ∈ es, (∃ m ∈ nodes, m.id = d.from_id) ∧ (∃ m ∈ nodes, m.id = d.to_id))
    (hnd : (nodes.map Node.id).Nodup)
    (hn : findNode nodes s = some n)
    (rank : String → Nat)
    (hr : ∀ p ∈ edgePairs (gnRelevantDeps nodes es s), rank p.2 < rank p.1) :
    ∀ (k : Nat) (x : String), rank x ≤ k → InClosure es s x →
      ∀ f1 f2 : Nat, rank x < f1 → rank x < f2 →
        calcValueFuel (gnClosureNodes nodes es s) (gnRelevantDeps nodes es s) f1 x
          = calcValueFuel nodes es f2 x := by
  intro k
  induction k with
  | zero =>
    intro x hxr hx f1 f2 h1 h2
    obtain ⟨g1, rfl⟩ := Nat.exists_eq_succ_of_ne_zero (Nat.pos_iff_ne_zero.mp (Nat.lt_of_le_of_lt (Nat.zero_le _) h1))
    obtain ⟨g2, rfl⟩ := Nat.exists_eq_succ_of_ne_zero (Nat.pos_iff_ne_zero.mp (Nat.lt_of_le_of_lt (Nat.zero_le _) h2))
    simp only [calcValueFuel]
    rw [findNode_gnClosure hwf hnd hn hx, depsFwd_restrict hwf hn hx]
    cases findNode nodes x with
    | none => rfl
    | some node =>
      have hmap : (depsFwd es x).map
            (fun d => calcValueFuel (gnClosureNodes nodes es s) (gnRelevantDeps nodes es s) g1 d)
          = (depsFwd es x).map (fun d => calcValueFuel nodes es g2 d) := by
        apply List.map_congr_left
        intro d hd
        have hedge := mem_depsFwd.mp hd
        have hlt : rank d < rank x := hr _ (edge_in_rel hwf hn hx hedge)
        omega
      simp only [hmap]
  | succ j ih =>
    intro x hxr hx f1 f2 h1 h2
    obtain ⟨g1, rfl⟩ := Nat.exists_eq_succ_of_ne_zero (Nat.pos_iff_ne_zero.mp (Nat.lt_of_le_of_lt (Nat.zero_le _) h1))
    obtain ⟨g2, rfl⟩ := Nat.exists_eq_succ_of_ne_zero (Nat.pos_iff_ne_zero.mp (Nat.lt_of_le_of_lt (Nat.zero_le _) h2))
    simp only [calcValueFuel]
    rw [findNode_gnClosure hwf hnd hn hx, depsFwd_restrict hwf hn hx]
    cases findNode nodes x with
    | none => rfl
    | some node =>
      have hmap : (depsFwd es x).map
            (fun d => calcValueFuel (gnClosureNodes nodes es s) (gnRelevantDeps nodes es s) g1 d)
          = (depsFwd es x).map (fun d => calcValueFuel nodes es g2 d) := by
        apply List.map_congr_left
        intro d hd
        have hedge := mem_depsFwd.mp hd
        have hlt : rank d < rank x := hr _ (edge_in_rel hwf hn hx hedge)
        exact ih d (by omega) (inClosure_step hx hedge) g1 g2 (by omega) (by omega)
      simp only [hmap]

theorem calcValue_restrict {nodes : List Node} {es : List Dependency} {s x : String} {n : Node}
    (hA : Acyclic (edgePairs es))
    (hwf : ∀ d ∈ es, (∃ m ∈ nodes, m.id = d.from_id) ∧ (∃ m ∈ nodes, m.id = d.to_id))
    (hnd : (nodes.map Node.id).Nodup)
    (hn : findNode nodes s = some n) (hx : InClosure es s x) :
    calcValue (gnClosureNodes nodes es s) (gnRelevantDeps nodes es s) x
      = calcValue nodes es x := by
  obtain ⟨rank, hr, hb⟩ := exists_rank (@acyclic_rel nodes _ s hA)
  have hbound : rank x ≤ 2 * (gnRelevantDeps nodes es s).length := by
    have := hb x
    rwa [edgePairs_length] at this
  have hrel : (gnRelevantDeps nodes es s).length ≤ es.length :=
    List.length_filter_le _ _
  unfold calcValue evalFuel
  exact calcValueFuel_restrict hwf hnd hn rank hr (rank x) x (Nat.le_refl _) hx
    _ _ (by omega) (by omega)

theorem gnClosureIdList_sub {nodes : List Node} {es : List Dependency} {s x : String}
    (h : x ∈ gnClosureIdList nodes es s) : InClosure es s x := by
  unfold gnClosureIdList gnClosureNodes at h
  obtain ⟨m, hm, rfl⟩ := List.mem_map.mp h
  have hf := List.of_mem_filter hm
  exact mem_closureIds.mp (contains_true.mp hf)

theorem depsRev_rel_start {nodes : List Node} {es : List Dependency} {s : String}
    (hA : Acyclic (edgePairs es)) :
    depsRev (gnRelevantDeps nodes es s) s = [] := by
  cases hd : depsRev (gnRelevantDeps nodes es s) s with
  | nil => rfl
  | cons d t =>
    exfalso
    have hmem : d ∈ depsRev (gnRelevantDeps nodes es s) s := by
      rw [hd]
      exact List.mem_cons_self d t
    have hedge : (d, s) ∈ edgePairs (gnRelevantDeps nodes es s) := mem_depsRev.mp hmem
    obtain ⟨dep, hdep, heq⟩ := List.mem_map.mp hedge
    have hcond := List.of_mem_filter hdep
    simp only [Bool.and_eq_true] at hcond
    have hfrom : dep.from_id = d := congrArg Prod.fst heq
    have hin : InClosure es s d := by
      apply @gnClosureIdList_sub nodes _ _ _
      rw [← hfrom]
      exact contains_true.mp hcond.1
    have hedge2 : (d, s) ∈ edgePairs es := edgePairs_rel_sub _ hedge
    rcases hin with rfl | hpath
    · exact hA d (Path.single hedge2)
    · exact hA s (path_snoc hpath hedge2)

theorem calcDue_gn {nodes : List Node} {es : List Dependency} {s : String} {n : Node}
    (hA : Acyclic (edgePairs es))
    (hwf : ∀ d ∈ es, (∃ m ∈ nodes, m.id = d.from_id) ∧ (∃ m ∈ nodes, m.id = d.to_id))
    (hnd : (nodes.map Node.id).Nodup)
    (hn : findNode nodes s = some n) :
    calcDue (gnClosureNodes nodes es s) (gnRelevantDeps nodes es s) s
      = (pyTruthyDue n.due).min? := by
  rw [calcDue_eq (@acyclic_rel nodes _ s hA) s]
  rw [depsRev_rel_start hA]
  simp only [List.map_nil, List.filterMap_nil, List.append_nil]
  rw [findNode_gnClosure hwf hnd hn (Or.inl rfl), hn]

/-- Claim C3 counterexample: for node `A` of the sample store (Task `B`
with due 5 depends on `A`), the single-node fetch reports
`calculated_due = none` while the bulk listing reports `some 5` for the
same node: the closure of `A` contains no dependents, so the reverse-edge
walk of the due calculator finds nothing there. -/
theorem get_node_counterexample :
    (getNode sampleNodes sampleDeps "A").map (fun e => e.calculated_due) = some none ∧
    enrichNode (sortByUpdated sampleNodes) sampleDeps sampleA
      ∈ (listNodes sampleNodes sampleDeps).1 ∧
    (enrichNode (sortByUpdated sampleNodes) sampleDeps sampleA).node.id = "A" ∧
    (enrichNode (sortByUpdated sampleNodes) sampleDeps sampleA).calculated_due = some 5 := by
  decide

/-- Claim C3 (amended): on an acyclic snapshot with unique node ids and
edges between stored nodes, the single-node fetch returns the same
`calculated_value`, `deps_clear` and `is_actionable` as the bulk listing
entry of the same node; its `calculated_due`, however, is evaluated on the
closure subgraph, where the node has no dependents, and therefore equals
the node's own due date when that is set and nonzero, and null otherwise
(it does not agree with the bulk listing, which folds in dependents). -/
theorem get_node_spec (nodes : List Node) (es : List Dependency) (nid : String) (n : Node)
    (hA : Acyclic (edgePairs es)) (hnd : (nodes.map Node.id).Nodup)
    (hwf : ∀ d ∈ es, (∃ m ∈ nodes, m.id = d.from_id) ∧ (∃ m ∈ nodes, m.id = d.to_id))
    (hn : findNode nodes nid = some n) :
    getNode nodes es nid = some
      { node := n
        calculated_value := some (calcValue nodes es nid)
        calculated_due := (pyTruthyDue n.due).min?
        deps_clear := some (depsClearCalc nodes es n)
        is_actionable := some (isActionableCalc nodes es n) } ∧
    (∀ e ∈ (listNodes nodes es).1, e.node.id = nid →
      e.node = n ∧
      e.calculated_value = some (calcValue nodes es nid) ∧
      e.deps_clear = some (depsClearCalc nodes es n) ∧
      e.is_actionable = some (isActionableCalc nodes es n)) := by
  have hid : n.id = nid := (findNode_some_mem hn).2
  have hcy := @hasCyclesB_false_of_acyclic nodes _ hA
  have hdc : calculateGateLogic n.node_type
      ((depsFwd (gnRelevantDeps nodes es nid) nid).map
        (calcValue (gnClosureNodes nodes es nid) (gnRelevantDeps nodes es nid)))
      = depsClearCalc nodes es n := by
    unfold depsClearCalc
    rw [hid]
    rw [depsFwd_restrict hwf hn (Or.inl rfl)]
    apply congrArg
    apply List.map_congr_left
    intro d hd
    have hedge := mem_depsFwd.mp hd
    exact calcValue_restrict hA hwf hnd hn (inClosure_step (Or.inl rfl) hedge)
  constructor
  · unfold getNode
    rw [hn, hcy]
    simp only [Bool.false_eq_true, if_false]
    rw [calcDue_gn hA hwf hnd hn]
    rw [hdc]
    rw [calcValue_restrict hA hwf hnd hn (Or.inl rfl)]
    rfl
  · intro e he hied
    unfold listNodes at he
    rw [hcy] at he
    simp only [Bool.false_eq_true, if_false] at he
    obtain ⟨m, hm, rfl⟩ := List.mem_map.mp he
    have hperm := sortByUpdated_perm nodes
    have hmm : m ∈ nodes := hperm.mem_iff.mp hm
    have hmid : m.id = nid := hied
    have hfm : findNode nodes nid = some m := findNode_eq_some_of hnd hmm hmid
    have hmn : m = n := by
      rw [hfm] at hn
      exact Option.some.inj hn
    have hfind : ∀ q, findNode (sortByUpdated nodes) q = findNode nodes q :=
      findNode_perm hperm (nodup_of_perm hperm.symm hnd)
    have hcalc : ∀ q, calcValue (sortByUpdated nodes) es q = calcValue nodes es q :=
      calcValue_congr hfind
    have hmapc : ∀ q, (depsFwd es q).map (calcValue (sortByUpdated nodes) es)
        = (depsFwd es q).map (calcValue nodes es) :=
      fun q => List.map_congr_left (fun d _ => hcalc d)
    refine ⟨hmn, ?_, ?_, ?_⟩
    · show some (calcValue (sortByUpdated nodes) es m.id) = _
      rw [hcalc, hmid]
    · show some (depsClearCalc (sortByUpdated nodes) es m) = _
      unfold depsClearCalc
      rw [hmapc, hmn]
    · show some (isActionableCalc (sortByUpdated nodes) es m) = _
      unfold isActionableCalc depsClearCalc
      rw [hmapc, hmn]

/-- Witness for `get_node_spec` at the sample store, node `B`. -/
theorem get_node_spec_witness :
    getNode sampleNodes sampleDeps "B" = some
      { node := sampleB
        calculated_value := some (calcValue sampleNodes sampleDeps "B")
        calculated_due := (pyTruthyDue sampleB.due).min?
        deps_clear := some (depsClearCalc sampleNodes sampleDeps sampleB)
        is_actionable := some (isActionableCalc sampleNodes sampleDeps sampleB) } ∧
    (∀ e ∈ (listNodes sampleNodes sampleDeps).1, e.node.id = "B" →
      e.node = sampleB ∧
      e.calculated_value = some (calcValue sampleNodes sampleDeps "B") ∧
      e.deps_clear = some (depsClearCalc sampleNodes sampleDeps sampleB) ∧
      e.is_actionable = some (isActionableCalc sampleNodes sampleDeps sampleB)) :=
  get_node_spec sampleNodes sampleDeps "B" sampleB
    (acyclic_of_rank sampleRank (by decide)) (by decide) (by decide) (by decide)

theorem rr_trans {ps : List (String × String)} {x y z : String}
    (h1 : x = y ∨ Path ps x y) (h2 : y = z ∨ Path ps y z) :
    x = z ∨ Path ps x z := by
  rcases h1 with rfl | p1
  · exact h2
  · rcases h2 with rfl | p2
    · exact Or.inr p1
    · exact Or.inr (path_trans p1 p2)

theorem path_append_case {ps : List (String × String)} {f t a b : String}
    (h : Path (ps ++ [(f, t)]) a b) :
    Path ps a b ∨ ((a = f ∨ Path ps a f) ∧ (t = b ∨ Path ps t b)) := by
  induction h with
  | single h =>
    rename_i u v
    rcases List.mem_append.mp h with h | h
    · exact Or.inl (Path.single h)
    · rcases List.mem_singleton.mp h with heq
      have h1 : u = f := congrArg Prod.fst heq
      have h2 : v = t := congrArg Prod.snd heq
      exact Or.inr ⟨Or.inl h1, Or.inl h2.symm⟩
  | cons h _ ih =>
    rename_i x m y hm
    rcases List.mem_append.mp h with h | h
    · rcases ih with hp | ⟨hmf, htb⟩
      · exact Or.inl (Path.cons h hp)
      · exact Or.inr ⟨rr_trans (Or.inr (Path.single h)) hmf, htb⟩
    · rcases List.mem_singleton.mp h with heq
      have h1 : x = f := congrArg Prod.fst heq
      have h2 : m = t := congrArg Prod.snd heq
      rcases ih with hp | ⟨hmf, htb⟩
      · refine Or.inr ⟨Or.inl h1, ?_⟩
        rw [← h2]
        exact Or.inr hp
      · refine Or.inr ⟨Or.inl h1, htb⟩

theorem acyclic_append_edge {ps : List (String × String)} {f t : String}
    (hA : Acyclic ps) (hft : f ≠ t) (hnp : ¬ Path ps t f) :
    Acyclic (ps ++ [(f, t)]) := by
  intro a ha
  rcases path_append_case ha with hp | ⟨haf, hta⟩
  · exact hA a hp
  · rcases rr_trans hta haf with heq | hpath
    · exact hft heq.symm
    · exact hnp hpath

theorem edgePairs_filter_sub {es : List Dependency} {P : Dependency → Bool} :
    ∀ p ∈ edgePairs (es.filter P), p ∈ edgePairs es := by
  intro p hp
  obtain ⟨d, hd, rfl⟩ := List.mem_map.mp hp
  exact List.mem_map.mpr ⟨d, List.mem_of_mem_filter hd, rfl⟩

theorem path2_mono {ps qs : List (String × String)} (hsub : ∀ p ∈ ps, p ∈ qs)
    {a b : String} (h : Path2 ps a b) : Path2 qs a b := by
  obtain ⟨c, hc, hp⟩ := h
  exact ⟨c, hsub _ hc, path_mono hsub hp⟩

theorem pair_of_mem_edgePairs {es : List Dependency} {a b : String}
    (h : (a, b) ∈ edgePairs es) :
    ∃ d ∈ es, d.from_id = a ∧ d.to_id = b := by
  obtain ⟨d, hd, heq⟩ := List.mem_map.mp h
  exact ⟨d, hd, congrArg Prod.fst heq, congrArg Prod.snd heq⟩

/-- Core of the transitive-reduction safety proof: on an acyclic edge set,
the endpoints of every original edge stay connected in the reduced set.
Strong induction on the rank gap of the edge: a deleted edge is implied by
a path of length at least two, and every edge on that path has a strictly
smaller gap. -/
theorem reduce_connects {es : List Dependency} (rank : String → Nat)
    (hr : ∀ p ∈ edgePairs es, rank p.2 < rank p.1) :
    ∀ (G : Nat) (d : Dependency), d ∈ es → rank d.from_id - rank d.to_id ≤ G →
      Path (edgePairs (reduceEdges es)) d.from_id d.to_id := by
  intro G
  induction G with
  | zero =>
    intro d hd hgap
    have hlt : rank d.to_id < rank d.from_id := hr _ (List.mem_map.mpr ⟨d, hd, rfl⟩)
    omega
  | succ j ih =>
    intro d hd hgap
    have hedge : (d.from_id, d.to_id) ∈ edgePairs es := List.mem_map.mpr ⟨d, hd, rfl⟩
    have hltd : rank d.to_id < rank d.from_id := hr _ hedge
    cases hkeep : path2B (edgePairs es) d.from_id d.to_id with
    | false =>
      apply Path.single
      apply List.mem_map.mpr
      refine ⟨d, List.mem_filter.mpr ⟨hd, ?_⟩, rfl⟩
      rw [hkeep]
      rfl
    | true =>
      obtain ⟨c, hc, hcp⟩ := path2B_correct.mp hkeep
      have hrc : rank d.to_id < rank c := rank_lt_of_path hr hcp
      have hrcf : rank c < rank d.from_id := hr _ hc
      -- connect d.from_id to c through the reduced set
      obtain ⟨dep1, hdep1, hf1, ht1⟩ := pair_of_mem_edgePairs hc
      have hp1 : Path (edgePairs (reduceEdges es)) d.from_id c := by
        have := ih dep1 hdep1 (by rw [hf1, ht1]; omega)
        rwa [hf1, ht1] at this
      -- connect c to d.to_id through the reduced set, edge by edge
      have hinner : ∀ (x y : String), Path (edgePairs es) x y →
          rank x < rank d.from_id → rank d.to_id ≤ rank y →
          Path (edgePairs (reduceEdges es)) x y := by
        intro x y hx
        induction hx with
        | single h =>
          rename_i u v
          intro hru hrv
          have huv : rank v < rank u := hr _ h
          obtain ⟨dep2, hdep2, hf2, ht2⟩ := pair_of_mem_edgePairs h
          have := ih dep2 hdep2 (by rw [hf2, ht2]; omega)
          rwa [hf2, ht2] at this
        | cons h htail ihp =>
          rename_i u m v
          intro hru hrv
          have hrm : rank v < rank m := rank_lt_of_path hr htail
          have hrmu : rank m < rank u := hr _ h
          obtain ⟨dep2, hdep2, hf2, ht2⟩ := pair_of_mem_edgePairs h
          have hseg : Path (edgePairs (reduceEdges es)) u m := by
            have := ih dep2 hdep2 (by rw [hf2, ht2]; omega)
            rwa [hf2, ht2] at this
          exact path_trans hseg (ihp (by omega) (by omega))
      exact path_trans hp1 (hinner c d.to_id hcp hrcf (Nat.le_refl _))

/-- Closure preservation of the transitive reduction on acyclic edge sets. -/
theorem reduce_path_iff {es : List Dependency} (hA : Acyclic (edgePairs es)) :
    ∀ a b, Path (edgePairs es) a b ↔ Path (edgePairs (reduceEdges es)) a b := by
  obtain ⟨rank, hr, hb⟩ := exists_rank hA
  intro a b
  constructor
  · intro h
    induction h with
    | single h =>
      obtain ⟨d, hd, hf, ht⟩ := pair_of_mem_edgePairs h
      have := reduce_connects rank hr (rank d.from_id - rank d.to_id) d hd (Nat.le_refl _)
      rwa [hf, ht] at this
    | cons h htail ih =>
      obtain ⟨d, hd, hf, ht⟩ := pair_of_mem_edgePairs h
      have hseg := reduce_connects rank hr (rank d.from_id - rank d.to_id) d hd (Nat.le_refl _)
      rw [hf, ht] at hseg
      exact path_trans hseg ih
  · exact path_mono edgePairs_filter_sub

/-- Claim C5: after every successful link on an acyclic snapshot, the
persisted edge set contains no edge whose endpoints are also joined by a
path of length at least two, the reduction preserves the reachability
closure of the merged edge set (in particular an edge that is the only
connection between its endpoints is never removed, since its endpoints stay
connected), and re-running the reduction removes nothing. -/
theorem link_reduction_spec (nodes : List Node) (es : List Dependency)
    (depId fromId toId rid : String) (es2 : List Dependency)
    (hA : Acyclic (edgePairs es))
    (hok : createDependency nodes es depId fromId toId = .ok (rid, es2)) :
    (∀ d ∈ es2, ¬ Path2 (edgePairs es2) d.from_id d.to_id) ∧
    (∀ a b, Path (edgePairs (mergeEdge es depId fromId toId).2) a b
      ↔ Path (edgePairs es2) a b) ∧
    reduceEdges es2 = es2 := by
  unfold createDependency at hok
  by_cases h1 : (fromId == toId) = true
  · rw [if_pos h1] at hok
    cases hok
  rw [if_neg h1] at hok
  by_cases h2 : (!(nodes.any (fun n => n.id == fromId))) = true
  · rw [if_pos h2] at hok
    cases hok
  rw [if_neg h2] at hok
  by_cases h3 : (!(nodes.any (fun n => n.id == toId))) = true
  · rw [if_pos h3] at hok
    cases hok
  rw [if_neg h3] at hok
  by_cases h4 : pathB (edgePairs es) toId fromId = true
  · rw [if_pos h4] at hok
    cases hok
  rw [if_neg h4] at hok
  simp only [Except.ok.injEq, Prod.mk.injEq] at hok
  obtain ⟨hrid, hes2⟩ := hok
  have hft : fromId ≠ toId := fun he => h1 (beq_iff_eq.mpr he)
  have hnp : ¬ Path (edgePairs es) toId fromId := fun hp => h4 (pathB_correct.mpr hp)
  have hA1 : Acyclic (edgePairs (mergeEdge es depId fromId toId).2) := by
    unfold mergeEdge
    cases hfind : es.find? (fun d => d.from_id == fromId && d.to_id == toId) with
    | some d =>
      simp only [hfind]
      exact hA
    | none =>
      simp only [hfind]
      have hpp : edgePairs (es ++ [{ id := depId, from_id := fromId, to_id := toId }])
          = edgePairs es ++ [(fromId, toId)] := by
        unfold edgePairs
        rw [List.map_append]
        rfl
      show Acyclic (edgePairs (es ++ [{ id := depId, from_id := fromId, to_id := toId }]))
      rw [hpp]
      exact acyclic_append_edge hA hft hnp
  have hnot2 : ∀ d ∈ es2, ¬ Path2 (edgePairs es2) d.from_id d.to_id := by
    intro d hd hP2
    rw [← hes2] at hd hP2
    have hP2m : Path2 (edgePairs (mergeEdge es depId fromId toId).2) d.from_id d.to_id :=
      path2_mono edgePairs_filter_sub hP2
    have hcond := List.of_mem_filter hd
    rw [path2B_correct.mpr hP2m] at hcond
    cases hcond
  refine ⟨hnot2, ?_, ?_⟩
  · rw [← hes2]
    exact reduce_path_iff hA1
  · apply List.filter_eq_self.mpr
    intro d hd
    cases hp2 : path2B (edgePairs es2) d.from_id d.to_id with
    | false => rfl
    | true => exact absurd (path2B_correct.mp hp2) (hnot2 d hd)

/-- Witness for `link_reduction_spec`: linking `B -> G` in the sample store
merges the new edge and the reduction then removes the now-implied edge
`B -> A` (path `B -> G -> A`), leaving `[G -> A, B -> G]`. -/
theorem link_reduction_spec_witness :
    (∀ d ∈ [({ id := "e2", from_id := "G", to_id := "A" } : Dependency),
            { id := "e3", from_id := "B", to_id := "G" }],
      ¬ Path2 (edgePairs [({ id := "e2", from_id := "G", to_id := "A" } : Dependency),
            { id := "e3", from_id := "B", to_id := "G" }]) d.from_id d.to_id) ∧
    (∀ a b, Path (edgePairs (mergeEdge sampleDeps "e3" "B" "G").2) a b
      ↔ Path (edgePairs [({ id := "e2", from_id := "G", to_id := "A" } : Dependency),
            { id := "e3", from_id := "B", to_id := "G" }]) a b) ∧
    reduceEdges [({ id := "e2", from_id := "G", to_id := "A" } : Dependency),
            { id := "e3", from_id := "B", to_id := "G" }]
      = [({ id := "e2", from_id := "G", to_id := "A" } : Dependency),
            { id := "e3", from_id := "B", to_id := "G" }] :=
  link_reduction_spec sampleNodes sampleDeps "e3" "B" "G" "e3"
    [{ id := "e2", from_id := "G", to_id := "A" }, { id := "e3", from_id := "B", to_id := "G" }]
    (acyclic_of_rank sampleRank (by decide)) rfl

/-- Claim C6: a link request that is a self-loop, or whose reverse
reachability already holds (a path from `to_id` back to `from_id` exists),
fails with the descriptive error naming the endpoints of the offending
path, and the stored edge set after the failed call is unchanged. -/
theorem link_cycle_rejected (nodes : List Node) (es : List Dependency)
    (depId fromId toId : String)
    (hwf : ∀ d ∈ es, (∃ m ∈ nodes, m.id = d.from_id) ∧ (∃ m ∈ nodes, m.id = d.to_id))
    (hbad : fromId = toId ∨ Path (edgePairs es) toId fromId) :
    (∃ msg, createDependency nodes es depId fromId toId = .error msg ∧
      (msg = selfLoopMsg fromId ∨ msg = cycleMsg fromId toId)) ∧
    linkResultEdges nodes es depId fromId toId = es := by
  by_cases h1 : fromId = toId
  · have hc : (fromId == toId) = true := beq_iff_eq.mpr h1
    have herr : createDependency nodes es depId fromId toId = .error (selfLoopMsg fromId) := by
      unfold createDependency
      rw [if_pos hc]
    refine ⟨⟨_, herr, Or.inl rfl⟩, ?_⟩
    unfold linkResultEdges
    rw [herr]
  · have hpath : Path (edgePairs es) toId fromId := by
      rcases hbad with he | hp
      · exact absurd he h1
      · exact hp
    have hsrc : (nodes.any (fun n => n.id == fromId)) = true := by
      obtain ⟨p, hp, hp2⟩ := path_dst_mem hpath
      obtain ⟨d, hd, hde⟩ := List.mem_map.mp hp
      obtain ⟨m, hm, hmid⟩ := (hwf d hd).2
      apply List.any_eq_true.mpr
      refine ⟨m, hm, beq_iff_eq.mpr ?_⟩
      rw [hmid, show d.to_id = p.2 from congrArg Prod.snd hde]
      exact hp2
    have htgt : (nodes.any (fun n => n.id == toId)) = true := by
      obtain ⟨p, hp, hp1⟩ := path_src_mem hpath
      obtain ⟨d, hd, hde⟩ := List.mem_map.mp hp
      obtain ⟨m, hm, hmid⟩ := (hwf d hd).1
      apply List.any_eq_true.mpr
      refine ⟨m, hm, beq_iff_eq.mpr ?_⟩
      rw [hmid, show d.from_id = p.1 from congrArg Prod.fst hde]
      exact hp1
    have herr : createDependency nodes es depId fromId toId
        = .error (cycleMsg fromId toId) := by
      unfold createDependency
      rw [if_neg (fun h => h1 (beq_iff_eq.mp h))]
      rw [if_neg (by intro h; rw [hsrc] at h; cases h)]
      rw [if_neg (by intro h; rw [htgt] at h; cases h)]
      rw [if_pos (pathB_correct.mpr hpath)]
    refine ⟨⟨_, herr, Or.inr rfl⟩, ?_⟩
    unfold linkResultEdges
    rw [herr]

/-- Witness for `link_cycle_rejected`: linking `A -> B` in the sample store
is rejected because `B` already depends on `A`, and the edge set stays
unchanged. -/
theorem link_cycle_rejected_witness :
    (∃ msg, createDependency sampleNodes sampleDeps "e9" "A" "B" = .error msg ∧
      (msg = selfLoopMsg "A" ∨ msg = cycleMsg "A" "B")) ∧
    linkResultEdges sampleNodes sampleDeps "e9" "A" "B" = sampleDeps :=
  link_cycle_rejected sampleNodes sampleDeps "e9" "A" "B" (by decide)
    (Or.inr (Path.single (by decide)))

/-- Claim C10: calling `update_node` with no `node_type`, no `text`, no
`completed` and `due` not supplied performs no write and returns True even
when no node with that id exists; a False (not-found) result is only
produced when at least one field is actually supplied. -/
theorem update_node_noop_spec :
    (∀ (nodes : List Node) (es : List Dependency) (id : String) (now : Int),
      updateNode nodes es id none none none DueParam.unset now = .ok (true, nodes, [])) ∧
    (∀ (nodes : List Node) (es : List Dependency) (id : String)
        (node_type text : Option String) (completed : Option Bool)
        (due : DueParam) (now : Int) (ns : List Node) (ids : List String),
      updateNode nodes es id node_type text completed due now = .ok (false, ns, ids) →
      (node_type ≠ none ∨ text ≠ none ∨ completed ≠ none ∨ due ≠ DueParam.unset)) := by
  constructor
  · intro nodes es id now
    rfl
  · intro nodes es id nt t c d now ns ids hok
    by_contra hcon
    push_neg at hcon
    obtain ⟨h1, h2, h3, h4⟩ := hcon
    subst h1
    subst h2
    subst h3
    subst h4
    rw [show updateNode nodes es id none none none DueParam.unset now
        = .ok (true, nodes, []) from rfl] at hok
    simp only [Except.ok.injEq, Prod.mk.injEq] at hok
    cases hok.1

/-- Witness for `update_node_noop_spec` part two: supplying only `text` on
a store without the node returns the not-found result. -/
theorem update_node_noop_spec_witness :
    updateNode [] [] "x" none (some "t") none DueParam.unset 0 = .ok (false, [], []) ∧
    ((none : Option String) ≠ none ∨ (some "t" : Option String) ≠ none ∨
      (none : Option Bool) ≠ none ∨ DueParam.unset ≠ DueParam.unset) :=
  ⟨rfl, update_node_noop_spec.2 [] [] "x" none (some "t") none DueParam.unset 0 [] [] rfl⟩

theorem clearedR_refl (now : Int) (o : Node) : ClearedR now o o := Or.inl rfl

theorem clearedR_fields {now : Int} {o c : Node} (h : ClearedR now o c) :
    c.id = o.id ∧ c.node_type = o.node_type ∧ c.text = o.text ∧ c.due = o.due ∧
    c.created_at = o.created_at ∧
    (c.completed = o.completed ∨ (o.node_type = "Task" ∧ c.completed = some false)) := by
  rcases h with rfl | ⟨ht, rfl⟩
  · exact ⟨rfl, rfl, rfl, rfl, rfl, Or.inl rfl⟩
  · exact ⟨rfl, rfl, rfl, rfl, rfl, Or.inr ⟨ht, rfl⟩⟩

theorem clearedR_trans {now : Int} {o m c : Node}
    (h1 : ClearedR now o m) (h2 : ClearedR now m c) : ClearedR now o c := by
  rcases h1 with rfl | ⟨ht, rfl⟩
  · exact h2
  · rcases h2 with rfl | ⟨ht2, rfl⟩
    · exact Or.inr ⟨ht, rfl⟩
    · exact Or.inr ⟨ht, rfl⟩

theorem evolved_refl (now : Int) (s : List Node) : Evolved now s s := by
  induction s with
  | nil => exact List.Forall₂.nil
  | cons n t ih => exact List.Forall₂.cons (clearedR_refl now n) ih

theorem evolved_trans {now : Int} {a b c : List Node}
    (h1 : Evolved now a b) (h2 : Evolved now b c) : Evolved now a c := by
  induction h1 generalizing c with
  | nil =>
    cases h2
    exact List.Forall₂.nil
  | cons hab htail ih =>
    cases h2 with
    | cons hbc htail2 => exact List.Forall₂.cons (clearedR_trans hab hbc) (ih htail2)

theorem evolved_setTask {now : Int} (s : List Node) (p : String) :
    Evolved now s (setTaskIncomplete s p now) := by
  unfold setTaskIncomplete
  induction s with
  | nil => exact List.Forall₂.nil
  | cons n t ih =>
    rw [List.map_cons]
    refine List.Forall₂.cons ?_ ih
    by_cases hc : (n.id == p && n.node_type == "Task") = true
    · rw [if_pos hc]
      simp only [Bool.and_eq_true, beq_iff_eq] at hc
      exact Or.inr ⟨hc.2, rfl⟩
    · rw [if_neg hc]
      exact clearedR_refl now n

theorem evolved_findNode {now : Int} {base s : List Node} (h : Evolved now base s) :
    ∀ q, (findNode base q = none ∧ findNode s q = none) ∨
      (∃ o c, findNode base q = some o ∧ findNode s q = some c ∧ ClearedR now o c) := by
  induction h with
  | nil => intro q; exact Or.inl ⟨rfl, rfl⟩
  | cons hoc htail ih =>
    rename_i o c bt st
    intro q
    unfold findNode at ih ⊢
    rw [List.find?_cons, List.find?_cons]
    have hid : c.id = o.id := (clearedR_fields hoc).1
    cases hq : (o.id == q) with
    | true =>
      rw [show (c.id == q) = true by rw [hid]; exact hq]
      exact Or.inr ⟨o, c, rfl, rfl, hoc⟩
    | false =>
      rw [show (c.id == q) = false by rw [hid]; exact hq]
      exact ih q

theorem isFalse_mono {now : Int} {s s2 : List Node} (h : Evolved now s s2)
    {q : String} (hf : IsFalse s q) : IsFalse s2 q := by
  obtain ⟨n, hn, hc⟩ := hf
  rcases evolved_findNode h q with ⟨h1, -⟩ | ⟨o, c, ho, hc2, hrel⟩
  · rw [hn] at h1
    cases h1
  · rw [hn] at ho
    cases Option.some.inj ho
    rcases (clearedR_fields hrel).2.2.2.2.2 with he | ⟨-, he⟩
    · exact ⟨c, hc2, by rw [he, hc]⟩
    · exact ⟨c, hc2, he⟩

theorem isTrueTask_back {now : Int} {base s : List Node} (h : Evolved now base s)
    {p : String} (ht : IsTrueTask s p) : IsTrueTask base p := by
  obtain ⟨c, hc, htype, hcomp⟩ := ht
  rcases evolved_findNode h p with ⟨-, h2⟩ | ⟨o, c2, ho, hc2, hrel⟩
  · rw [hc] at h2
    cases h2
  · rw [hc] at hc2
    cases Option.some.inj hc2
    obtain ⟨-, htyp2, -, -, -, hcm⟩ := clearedR_fields hrel
    refine ⟨o, ho, by rw [← htyp2]; exact htype, ?_⟩
    rcases hcm with he | ⟨-, he⟩
    · rw [← he]
      exact hcomp
    · rw [he] at hcomp
      cases hcomp

theorem isTrueTask_fwd {now : Int} {base s : List Node} (h : Evolved now base s)
    {p : String} (ht : IsTrueTask base p) (hnf : ¬ IsFalse s p) : IsTrueTask s p := by
  obtain ⟨o, ho, htype, hcomp⟩ := ht
  rcases evolved_findNode h p with ⟨h1, -⟩ | ⟨o2, c, ho2, hc, hrel⟩
  · rw [ho] at h1
    cases h1
  · rw [ho] at ho2
    cases Option.some.inj ho2
    obtain ⟨-, htyp2, -, -, -, hcm⟩ := clearedR_fields hrel
    rcases hcm with he | ⟨-, he⟩
    · exact ⟨c, hc, by rw [htyp2]; exact htype, by rw [he]; exact hcomp⟩
    · exact absurd ⟨c, hc, he⟩ hnf

theorem findNode_setTask_frame {s : List Node} {p q : String} {now : Int} (hne : q ≠ p) :
    findNode (setTaskIncomplete s p now) q = findNode s q := by
  unfold setTaskIncomplete findNode
  induction s with
  | nil => rfl
  | cons n t ih =>
    rw [List.map_cons, List.find?_cons, List.find?_cons]
    by_cases hc : (n.id == p && n.node_type == "Task") = true
    · rw [if_pos hc]
      simp only [Bool.and_eq_true, beq_iff_eq] at hc
      have hq : (n.id == q) = false := by
        apply beq_eq_false_iff_ne.mpr
        rw [hc.1]
        exact fun he => hne he.symm
      rw [show ({ n with completed := some false, updated_at := some now } : Node).id = n.id
        from rfl, hq]
      exact ih
    · rw [if_neg hc]
      cases hq : (n.id == q) with
      | true => rfl
      | false => exact ih

theorem findNode_applyProps_frame {s : List Node} {id q : String} {t : Option String}
    {c : Option Bool} {d : DueParam} {now : Int} (hne : q ≠ id) :
    findNode (applyProps s id t c d now) q = findNode s q := by
  unfold applyProps findNode
  induction s with
  | nil => rfl
  | cons n rest ih =>
    rw [List.map_cons, List.find?_cons, List.find?_cons]
    by_cases hc : (n.id == id) = true
    · rw [if_pos hc]
      have hq : (n.id == q) = false := by
        apply beq_eq_false_iff_ne.mpr
        rw [beq_iff_eq.mp hc]
        exact fun he => hne he.symm
      rw [show ∀ m : Node, ({ m with
          text := (match t with | some v => v | none => m.text),
          completed := (match c with | some v => some v | none => m.completed),
          due := (match d with
            | DueParam.unset => m.due
            | DueParam.clear => none
            | DueParam.setTo v => some v),
          updated_at := some now } : Node).id = m.id from fun m => rfl, hq]
      exact ih
    · rw [if_neg hc]
      cases hq : (n.id == q) with
      | true => rfl
      | false => exact ih

theorem upTrue_trans {base : List Node} {es : List Dependency} {t q x : String}
    (h1 : UpTrue base es t q) (h2 : UpTrue base es q x) : UpTrue base es t x := by
  induction h2 with
  | direct he ht => exact UpTrue.step h1 he ht
  | step _ he ht ih => exact UpTrue.step ih he ht

theorem upTrue_path {base : List Node} {es : List Dependency} {t p : String}
    (h : UpTrue base es t p) : Path (edgePairs es) p t := by
  induction h with
  | direct he _ => exact Path.single he
  | step _ he _ ih => exact Path.cons he ih

theorem upTrue_target_true {base : List Node} {es : List Dependency} {t p : String}
    (h : UpTrue base es t p) : IsTrueTask base p := by
  cases h with
  | direct _ ht => exact ht
  | step _ _ ht => exact ht

theorem isTrueTask_congr {s1 s2 : List Node} {x : String}
    (h : findNode s1 x = findNode s2 x) : IsTrueTask s1 x ↔ IsTrueTask s2 x := by
  unfold IsTrueTask
  rw [h]

theorem upTrue_congr_mp {s1 s2 : List Node} {es : List Dependency} {t p : String}
    (hA : Acyclic (edgePairs es))
    (hfr : ∀ x, x ≠ t → findNode s1 x = findNode s2 x)
    (h : UpTrue s1 es t p) : UpTrue s2 es t p := by
  induction h with
  | direct he ht =>
    rename_i p2
    have hne : p2 ≠ t := by
      intro heq
      rw [heq] at he
      exact hA t (Path.single he)
    exact UpTrue.direct he ((isTrueTask_congr (hfr p2 hne)).mp ht)
  | step hup he ht ih =>
    rename_i q2 p2
    have hpath : Path (edgePairs es) p2 t := Path.cons he (upTrue_path hup)
    have hne : p2 ≠ t := by
      intro heq
      rw [heq] at hpath
      exact hA t hpath
    exact UpTrue.step ih he ((isTrueTask_congr (hfr p2 hne)).mp ht)

theorem setTask_clears {s : List Node} {p : String} {m : Node} {now : Int}
    (hm : findNode s p = some m) (ht : m.node_type = "Task") :
    IsFalse (setTaskIncomplete s p now) p := by
  induction s with
  | nil => cases hm
  | cons n t ih =>
    unfold findNode at hm
    rw [List.find?_cons] at hm
    unfold setTaskIncomplete
    cases hq : (n.id == p) with
    | true =>
      rw [hq] at hm
      have heq : n = m := by simpa using hm
      subst heq
      have hcond : (n.id == p && n.node_type == "Task") = true := by
        rw [hq, beq_iff_eq.mpr ht]
        rfl
      refine ⟨{ n with completed := some false, updated_at := some now }, ?_, rfl⟩
      unfold findNode
      simp only [List.map_cons]
      rw [if_pos hcond, List.find?_cons]
      rw [show ({ n with completed := some false, updated_at := some now } : Node).id = n.id
        from rfl, hq]
    | false =>
      rw [hq] at hm
      simp only at hm
      have hrec := ih hm
      obtain ⟨c, hc, hcc⟩ := hrec
      refine ⟨c, ?_, hcc⟩
      unfold findNode at hc ⊢
      simp only [List.map_cons]
      rw [List.find?_cons]
      by_cases hcond : (n.id == p && n.node_type == "Task") = true
      · rw [if_pos hcond]
        rw [show ({ n with completed := some false, updated_at := some now } : Node).id = n.id
          from rfl, hq]
        exact hc
      · rw [if_neg hcond, hq]
        exact hc

theorem isFalse_setTask_src {s : List Node} {p q : String} {now : Int}
    (hf : IsFalse (setTaskIncomplete s p now) q) (hne : q ≠ p) : IsFalse s q := by
  obtain ⟨c, hc, hcc⟩ := hf
  rw [findNode_setTask_frame hne] at hc
  exact ⟨c, hc, hcc⟩

theorem mem_trueTaskParents {nodes : List Node} {es : List Dependency} {t p : String} :
    p ∈ trueTaskParents nodes es t ↔ (p ∈ depsRev es t ∧ IsTrueTask nodes p) := by
  unfold trueTaskParents
  constructor
  · intro h
    refine ⟨List.mem_of_mem_filter h, ?_⟩
    have hc := List.of_mem_filter h
    revert hc
    cases hfind : findNode nodes p with
    | none => intro hc; cases hc
    | some n =>
      intro hc
      simp only [Bool.and_eq_true, beq_iff_eq] at hc
      exact ⟨n, hfind, hc.1, hc.2⟩
  · rintro ⟨hmem, n, hfind, htype, hcomp⟩
    apply List.mem_filter.mpr
    refine ⟨hmem, ?_⟩
    rw [hfind]
    simp only [Bool.and_eq_true, beq_iff_eq]
    exact ⟨htype, hcomp⟩

/-- Invariant of the per-parent loop of the propagation walk, generic in
the recursive worker `propFn`: the loop only clears stored completion
flags, clears every listed parent, leaves untouched ids unchanged, reports
only chain-reachable ids, and every Task newly cleared during the loop has
its own complete parents cleared by the end of the loop. -/
theorem propagateList_post {es : List Dependency} {now : Int} {base : List Node}
    (propFn : List Node → String → List Node × List String) :
    ∀ (ps : List String) (s : List Node),
      Evolved now base s →
      (∀ p ∈ ps, IsTrueTask base p) →
      (∀ s2 p, p ∈ ps → Evolved now base s2 →
        Evolved now s2 (propFn s2 p).1 ∧
        (∀ pp, (pp, p) ∈ edgePairs es → IsTrueTask base pp → IsFalse (propFn s2 p).1 pp) ∧
        (∀ q, IsTrueTask base q → ¬ IsFalse s2 q → IsFalse (propFn s2 p).1 q →
          ∀ pp, (pp, q) ∈ edgePairs es → IsTrueTask base pp → IsFalse (propFn s2 p).1 pp) ∧
        (∀ q, q ∈ (propFn s2 p).2 → UpTrue base es p q) ∧
        (∀ q, IsFalse (propFn s2 p).1 q → IsFalse s2 q ∨ q ∈ (propFn s2 p).2) ∧
        (∀ q, q ∉ (propFn s2 p).2 → findNode (propFn s2 p).1 q = findNode s2 q)) →
      Evolved now s (propagateList now propFn s ps).1 ∧
      (∀ p ∈ ps, IsFalse (propagateList now propFn s ps).1 p) ∧
      (∀ q, IsTrueTask base q → ¬ IsFalse s q → IsFalse (propagateList now propFn s ps).1 q →
        ∀ pp, (pp, q) ∈ edgePairs es → IsTrueTask base pp →
          IsFalse (propagateList now propFn s ps).1 pp) ∧
      (∀ q, q ∈ (propagateList now propFn s ps).2 →
        q ∈ ps ∨ ∃ p ∈ ps, UpTrue base es p q) ∧
      (∀ q, IsFalse (propagateList now propFn s ps).1 q →
        IsFalse s q ∨ q ∈ (propagateList now propFn s ps).2) ∧
      (∀ q, q ∉ (propagateList now propFn s ps).2 →
        findNode (propagateList now propFn s ps).1 q = findNode s q) := by
  intro ps
  induction ps with
  | nil =>
    intro s hbs hps hHP
    simp only [propagateList]
    refine ⟨evolved_refl now s, ?_, ?_, ?_, ?_, ?_⟩
    · intro p hp
      cases hp
    · intro q _ hnf hf pp _ _
      exact absurd hf hnf
    · intro q hq
      cases hq
    · intro q hf
      exact Or.inl hf
    · intro q _
      simp
  | cons p rest ih =>
    intro s hbs hps hHP
    have hmemp : p ∈ p :: rest := List.mem_cons_self p rest
    have hbase1 : Evolved now base (setTaskIncomplete s p now) :=
      evolved_trans hbs (evolved_setTask s p)
    obtain ⟨hp_ev, hp_ii, hp_iii, hp_iv, hp_v, hp_vi⟩ :=
      hHP (setTaskIncomplete s p now) p hmemp hbase1
    have hbase2 : Evolved now base (propFn (setTaskIncomplete s p now) p).1 :=
      evolved_trans hbase1 hp_ev
    obtain ⟨l_a, l_b, l_c, l_d, l_e, l_f⟩ :=
      ih (propFn (setTaskIncomplete s p now) p).1 hbase2
        (fun x hx => hps x (List.mem_cons_of_mem p hx))
        (fun s2 x hx h2 => hHP s2 x (List.mem_cons_of_mem p hx) h2)
    -- the cleared head stays cleared through the rest of the loop
    have hfalse_p : IsFalse (setTaskIncomplete s p now) p := by
      obtain ⟨nb, hnb, hnbt, -⟩ := hps p hmemp
      rcases evolved_findNode hbs p with ⟨h1, -⟩ | ⟨o, c, ho, hc, hrel⟩
      · rw [hnb] at h1
        cases h1
      · rw [hnb] at ho
        cases Option.some.inj ho
        have hct : c.node_type = "Task" := by
          rw [(clearedR_fields hrel).2.1]
          exact hnbt
        exact setTask_clears hc hct
    simp only [propagateList]
    refine ⟨?_, ?_, ?_, ?_, ?_, ?_⟩
    · exact evolved_trans (evolved_setTask s p) (evolved_trans hp_ev l_a)
    · intro x hx
      rcases List.mem_cons.mp hx with rfl | hx
      · exact isFalse_mono l_a (isFalse_mono hp_ev hfalse_p)
      · exact l_b x hx
    · intro q hqt hqnf hqf pp hedge hppt
      by_cases h2 : IsFalse (propFn (setTaskIncomplete s p now) p).1 q
      · by_cases h1 : IsFalse (setTaskIncomplete s p now) q
        · have hqp : q = p := by
            by_contra hne
            exact hqnf (isFalse_setTask_src h1 hne)
          rw [hqp] at hedge
          exact isFalse_mono l_a (hp_ii pp hedge hppt)
        · exact isFalse_mono l_a (hp_iii q hqt h1 h2 pp hedge hppt)
      · exact l_c q hqt h2 hqf pp hedge hppt
    · intro q hq
      rcases List.mem_cons.mp hq with rfl | hq
      · exact Or.inl hmemp
      · rcases List.mem_append.mp hq with hq | hq
        · exact Or.inr ⟨p, hmemp, hp_iv q hq⟩
        · rcases l_d q hq with hq2 | ⟨x, hx, hup⟩
          · exact Or.inl (List.mem_cons_of_mem p hq2)
          · exact Or.inr ⟨x, List.mem_cons_of_mem p hx, hup⟩
    · intro q hqf
      rcases l_e q hqf with hq2 | hq2
      · rcases hp_v q hq2 with hq3 | hq3
        · by_cases hqp : q = p
          · rw [hqp]
            exact Or.inr (List.mem_cons_self p _)
          · exact Or.inl (isFalse_setTask_src hq3 hqp)
        · exact Or.inr (List.mem_cons_of_mem p (List.mem_append_left _ hq3))
      · exact Or.inr (List.mem_cons_of_mem p (List.mem_append_right _ hq2))
    · intro q hq
      have hqp : q ≠ p := fun he => hq (by rw [he]; exact List.mem_cons_self p _)
      have hq1 : q ∉ (propFn (setTaskIncomplete s p now) p).2 :=
        fun hm => hq (List.mem_cons_of_mem p (List.mem_append_left _ hm))
      have hq2 : q ∉ (propagateList now propFn (propFn (setTaskIncomplete s p now) p).1 rest).2 :=
        fun hm => hq (List.mem_cons_of_mem p (List.mem_append_right _ hm))
      rw [l_f q hq2, hp_vi q hq1, findNode_setTask_frame hqp]

/-- Full postcondition of `_propagate_uncompletion` on acyclic snapshots,
by induction on the fuel: with fuel at least `2|es| + 1 - rank t` the walk
clears every currently-complete Task parent chain upward from `t`, reports
only chain ids, and touches nothing else. -/
theorem propagate_post {es : List Dependency} {now : Int} {base : List Node}
    (rank : String → Nat)
    (hr : ∀ p ∈ edgePairs es, rank p.2 < rank p.1)
    (hb : ∀ a, rank a ≤ 2 * es.length) :
    ∀ (fuel : Nat) (t : String) (s : List Node),
      Evolved now base s →
      2 * es.length + 1 - rank t ≤ fuel →
      Evolved now s (propagateUncompletion es now fuel s t).1 ∧
      (∀ p, (p, t) ∈ edgePairs es → IsTrueTask base p →
        IsFalse (propagateUncompletion es now fuel s t).1 p) ∧
      (∀ q, IsTrueTask base q → ¬ IsFalse s q →
        IsFalse (propagateUncompletion es now fuel s t).1 q →
        ∀ pp, (pp, q) ∈ edgePairs es → IsTrueTask base pp →
          IsFalse (propagateUncompletion es now fuel s t).1 pp) ∧
      (∀ q, q ∈ (propagateUncompletion es now fuel s t).2 → UpTrue base es t q) ∧
      (∀ q, IsFalse (propagateUncompletion es now fuel s t).1 q →
        IsFalse s q ∨ q ∈ (propagateUncompletion es now fuel s t).2) ∧
      (∀ q, q ∉ (propagateUncompletion es now fuel s t).2 →
        findNode (propagateUncompletion es now fuel s t).1 q = findNode s q) := by
  intro fuel
  induction fuel with
  | zero =>
    intro t s hbs hfuel
    exact absurd (hb t) (by omega)
  | succ f ih =>
    intro t s hbs hfuel
    have hHP : ∀ s2 p, p ∈ trueTaskParents s es t → Evolved now base s2 →
        Evolved now s2 (propagateUncompletion es now f s2 p).1 ∧
        (∀ pp, (pp, p) ∈ edgePairs es → IsTrueTask base pp →
          IsFalse (propagateUncompletion es now f s2 p).1 pp) ∧
        (∀ q, IsTrueTask base q → ¬ IsFalse s2 q →
          IsFalse (propagateUncompletion es now f s2 p).1 q →
          ∀ pp, (pp, q) ∈ edgePairs es → IsTrueTask base pp →
            IsFalse (propagateUncompletion es now f s2 p).1 pp) ∧
        (∀ q, q ∈ (propagateUncompletion es now f s2 p).2 → UpTrue base es p q) ∧
        (∀ q, IsFalse (propagateUncompletion es now f s2 p).1 q →
          IsFalse s2 q ∨ q ∈ (propagateUncompletion es now f s2 p).2) ∧
        (∀ q, q ∉ (propagateUncompletion es now f s2 p).2 →
          findNode (propagateUncompletion es now f s2 p).1 q = findNode s2 q) := by
      intro s2 p hp hbs2
      have hedge : (p, t) ∈ edgePairs es :=
        mem_depsRev.mp (mem_trueTaskParents.mp hp).1
      have hrt : rank t < rank p := hr _ hedge
      have hbp := hb p
      exact ih p s2 hbs2 (by omega)
    have hps : ∀ p ∈ trueTaskParents s es t, IsTrueTask base p := by
      intro p hp
      exact isTrueTask_back hbs (mem_trueTaskParents.mp hp).2
    obtain ⟨l_a, l_b, l_c, l_d, l_e, l_f⟩ :=
      propagateList_post (propagateUncompletion es now f) (trueTaskParents s es t) s hbs hps hHP
    have hunfold : propagateUncompletion es now (f + 1) s t
        = propagateList now (propagateUncompletion es now f) s (trueTaskParents s es t) := rfl
    rw [hunfold]
    refine ⟨l_a, ?_, l_c, ?_, l_e, l_f⟩
    · intro p hedge hpt
      by_cases hf1 : IsFalse s p
      · exact isFalse_mono l_a hf1
      · have hcur : IsTrueTask s p := isTrueTask_fwd hbs hpt hf1
        have hmem : p ∈ trueTaskParents s es t :=
          mem_trueTaskParents.mpr ⟨mem_depsRev.mpr hedge, hcur⟩
        exact l_b p hmem
    · intro q hq
      rcases l_d q hq with hq2 | ⟨x, hx, hup⟩
      · have hedge : (q, t) ∈ edgePairs es :=
          mem_depsRev.mp (mem_trueTaskParents.mp hq2).1
        exact UpTrue.direct hedge (hps q hq2)
      · have hedge : (x, t) ∈ edgePairs es :=
          mem_depsRev.mp (mem_trueTaskParents.mp hx).1
        exact upTrue_trans (UpTrue.direct hedge (hps x hx)) hup

theorem notFalse_of_true {s : List Node} {q : String} (ht : IsTrueTask s q) :
    ¬ IsFalse s q := by
  rintro ⟨c, hc, hcc⟩
  obtain ⟨o, ho, -, hoc⟩ := ht
  rw [ho] at hc
  cases Option.some.inj hc
  rw [hoc] at hcc
  cases hcc

/-- Claim C7: when `update_node` flips a Task's stored `completed` from
true to false, the uncompletion walk clears exactly the Tasks reachable
upward through chains of directly-dependent Tasks whose stored `completed`
was true, includes each of them in the returned id list, leaves every other
record untouched (in particular it never writes a gate record), and no
propagation happens when a node transitions to complete. -/
theorem update_node_uncompletion_spec (nodes : List Node) (es : List Dependency)
    (id : String) (n : Node) (now : Int)
    (hA : Acyclic (edgePairs es))
    (hn : findNode nodes id = some n)
    (htask : n.node_type = "Task") (hcomp : n.completed = some true) :
    (updateNode nodes es id none none (some false) DueParam.unset now
      = .ok (true,
        (propagateUncompletion es now (propFuel es)
          (applyProps nodes id none (some false) DueParam.unset now) id).1,
        (propagateUncompletion es now (propFuel es)
          (applyProps nodes id none (some false) DueParam.unset now) id).2)) ∧
    (∀ p, UpTrue nodes es id p →
      IsFalse (propagateUncompletion es now (propFuel es)
        (applyProps nodes id none (some false) DueParam.unset now) id).1 p ∧
      p ∈ (propagateUncompletion es now (propFuel es)
        (applyProps nodes id none (some false) DueParam.unset now) id).2) ∧
    (∀ p, p ∈ (propagateUncompletion es now (propFuel es)
        (applyProps nodes id none (some false) DueParam.unset now) id).2 →
      UpTrue nodes es id p) ∧
    (∀ q, q ≠ id → ¬ UpTrue nodes es id q →
      findNode (propagateUncompletion es now (propFuel es)
        (applyProps nodes id none (some false) DueParam.unset now) id).1 q
      = findNode nodes q) ∧
    (∀ (nodes2 : List Node) (es2 : List Dependency) (id2 : String) (now2 : Int),
      ∃ found ns, updateNode nodes2 es2 id2 none none (some true) DueParam.unset now2
        = .ok (found, ns, ([] : List String)) ∧
        ∀ q, q ≠ id2 → findNode ns q = findNode nodes2 q) := by
  obtain ⟨rank, hr0, hb0⟩ := exists_rank hA
  have hb : ∀ a, rank a ≤ 2 * es.length := by
    intro a
    have := hb0 a
    rwa [edgePairs_length] at this
  obtain ⟨P_i, P_ii, P_iii, P_iv, P_v, P_vi⟩ :=
    @propagate_post es now (applyProps nodes id none (some false) DueParam.unset now)
      rank hr0 hb (propFuel es) id
      (applyProps nodes id none (some false) DueParam.unset now)
      (evolved_refl now _) (by unfold propFuel; omega)
  have hframe0 : ∀ x, x ≠ id →
      findNode (applyProps nodes id none (some false) DueParam.unset now) x
        = findNode nodes x :=
    fun x hx => findNode_applyProps_frame hx
  have hc1 : ∀ p, UpTrue nodes es id p →
      UpTrue (applyProps nodes id none (some false) DueParam.unset now) es id p :=
    fun p h => upTrue_congr_mp hA (fun x hx => (hframe0 x hx).symm) h
  have hc2 : ∀ p, UpTrue (applyProps nodes id none (some false) DueParam.unset now) es id p →
      UpTrue nodes es id p :=
    fun p h => upTrue_congr_mp hA hframe0 h
  have hmain : ∀ p, UpTrue (applyProps nodes id none (some false) DueParam.unset now) es id p →
      IsFalse (propagateUncompletion es now (propFuel es)
        (applyProps nodes id none (some false) DueParam.unset now) id).1 p ∧
      p ∈ (propagateUncompletion es now (propFuel es)
        (applyProps nodes id none (some false) DueParam.unset now) id).2 := by
    intro p hup
    induction hup with
    | direct hedge ht =>
      rename_i p2
      have hnf := notFalse_of_true ht
      have hfalse := P_ii p2 hedge ht
      have hmem : p2 ∈ (propagateUncompletion es now (propFuel es)
          (applyProps nodes id none (some false) DueParam.unset now) id).2 := by
        rcases P_v p2 hfalse with h | h
        · exact absurd h hnf
        · exact h
      exact ⟨hfalse, hmem⟩
    | step hup2 hedge ht ih =>
      rename_i q2 p2
      obtain ⟨hfq, -⟩ := ih
      have htq := upTrue_target_true hup2
      have hfp := P_iii q2 htq (notFalse_of_true htq) hfq p2 hedge ht
      have hmem : p2 ∈ (propagateUncompletion es now (propFuel es)
          (applyProps nodes id none (some false) DueParam.unset now) id).2 := by
        rcases P_v p2 hfp with h | h
        · exact absurd h (notFalse_of_true ht)
        · exact h
      exact ⟨hfp, hmem⟩
  refine ⟨?_, ?_, ?_, ?_, ?_⟩
  · show updateNodeRest nodes es id none (some false) DueParam.unset now = _
    unfold updateNodeRest
    rw [hn]
    simp only [htask, hcomp, Option.isSome_some, Bool.not_false, Bool.true_and]
    rfl
  · intro p hup
    exact hmain p (hc1 p hup)
  · intro p hp
    exact hc2 p (P_iv p hp)
  · intro q hqid hqnup
    have hq2 : q ∉ (propagateUncompletion es now (propFuel es)
        (applyProps nodes id none (some false) DueParam.unset now) id).2 :=
      fun hm => hqnup (hc2 q (P_iv q hm))
    rw [P_vi q hq2]
    exact hframe0 q hqid
  · intro nodes2 es2 id2 now2
    cases hf : findNode nodes2 id2 with
    | none =>
      refine ⟨false, nodes2, ?_, fun q hq => rfl⟩
      show updateNodeRest nodes2 es2 id2 none (some true) DueParam.unset now2 = _
      unfold updateNodeRest
      rw [hf]
      rfl
    | some m =>
      refine ⟨true, applyProps nodes2 id2 none (some true) DueParam.unset now2, ?_,
        fun q hq => findNode_applyProps_frame hq⟩
      show updateNodeRest nodes2 es2 id2 none (some true) DueParam.unset now2 = _
      unfold updateNodeRest
      rw [hf]
      rfl

/-- Witness for `update_node_uncompletion_spec`: uncompleting `T0` in the
propagation sample. -/
theorem update_node_uncompletion_spec_witness :
    (updateNode propNodes propEdges "T0" none none (some false) DueParam.unset 7
      = .ok (true,
        (propagateUncompletion propEdges 7 (propFuel propEdges)
          (applyProps propNodes "T0" none (some false) DueParam.unset 7) "T0").1,
        (propagateUncompletion propEdges 7 (propFuel propEdges)
          (applyProps propNodes "T0" none (some false) DueParam.unset 7) "T0").2)) ∧
    (∀ p, UpTrue propNodes propEdges "T0" p →
      IsFalse (propagateUncompletion propEdges 7 (propFuel propEdges)
        (applyProps propNodes "T0" none (some false) DueParam.unset 7) "T0").1 p ∧
      p ∈ (propagateUncompletion propEdges 7 (propFuel propEdges)
        (applyProps propNodes "T0" none (some false) DueParam.unset 7) "T0").2) ∧
    (∀ p, p ∈ (propagateUncompletion propEdges 7 (propFuel propEdges)
        (applyProps propNodes "T0" none (some false) DueParam.unset 7) "T0").2 →
      UpTrue propNodes propEdges "T0" p) ∧
    (∀ q, q ≠ "T0" → ¬ UpTrue propNodes propEdges "T0" q →
      findNode (propagateUncompletion propEdges 7 (propFuel propEdges)
        (applyProps propNodes "T0" none (some false) DueParam.unset 7) "T0").1 q
      = findNode propNodes q) ∧
    (∀ (nodes2 : List Node) (es2 : List Dependency) (id2 : String) (now2 : Int),
      ∃ found ns, updateNode nodes2 es2 id2 none none (some true) DueParam.unset now2
        = .ok (found, ns, ([] : List String)) ∧
        ∀ q, q ≠ id2 → findNode ns q = findNode nodes2 q) :=
  update_node_uncompletion_spec propNodes propEdges "T0" propT0 7
    (acyclic_of_rank propRank (by decide)) rfl rfl rfl

/-- The result list of the batch loop after the first failure: successes for
the prefix, the failing entry with its message, skipped entries afterwards. -/
theorem runBatchAux_fail (now : Int) :
    ∀ (ops : List BatchOp) (st : GraphState),
      (runBatchAux now st ops).2.1 = false →
      ∃ pre op post stPre msg,
        ops = pre ++ op :: post ∧
        applyOps now st pre = some stPre ∧
        dispatchOp stPre now op = Except.error msg ∧
        (runBatchAux now st ops).2.2 =
          pre.map (fun o => ⟨opName o, true, none⟩) ++
          ⟨opName op, false, some msg⟩ ::
          post.map (fun o => ⟨opName o, false, some "skipped"⟩) := by
  intro ops
  induction ops with
  | nil => intro st h; simp [runBatchAux] at h
  | cons op rest ih =>
    intro st h
    cases hd : dispatchOp st now op with
    | ok st2 =>
      simp only [runBatchAux, hd] at h ⊢
      obtain ⟨pre, op2, post, stPre, msg, heq, happ, hdisp, hres⟩ := ih st2 h
      refine ⟨op :: pre, op2, post, stPre, msg, ?_, ?_, hdisp, ?_⟩
      · rw [heq]; rfl
      · simp [applyOps, hd, happ]
      · simp [hres]
    | error e =>
      refine ⟨[], op, rest, st, e, rfl, rfl, hd, ?_⟩
      simp [runBatchAux, hd]

/-- `find?` over the batch results skips the successful prefix and returns
the first failing entry. -/
theorem find_first_failure (pre : List BatchOp) (x : BatchOpResult)
    (tail : List BatchOpResult) (hx : x.success = false) :
    (pre.map (fun o => (⟨opName o, true, none⟩ : BatchOpResult)) ++ x :: tail).find?
      (fun r => !r.success) = some x := by
  induction pre with
  | nil => simp [List.find?, hx]
  | cons o rest ih => simpa [List.find?] using ih

/-- C9: for every batch of operations, if some operation fails then the
store is rolled back to its initial state (no effect of any operation
persists, including earlier successful ones); the response reports success
for each operation before the first failure, the first failure with its own
error message, and a "skipped" status for every operation after it, and the
response message is the first failure's message; in particular the batch
[create_node(A), link(A,B)] with B absent commits zero nodes and zero edges
and reports op 1 success and op 2 a not-found failure. -/
theorem batch_atomicity_spec :
    (∀ (st0 : GraphState) (ops : List BatchOp) (now : Int),
      (runBatch st0 ops now).2.success = false → (runBatch st0 ops now).1 = st0) ∧
    (∀ (st0 : GraphState) (ops : List BatchOp) (now : Int),
      (runBatch st0 ops now).2.success = false →
      ∃ pre op post stPre msg,
        ops = pre ++ op :: post ∧
        applyOps now st0 pre = some stPre ∧
        dispatchOp stPre now op = Except.error msg ∧
        (runBatch st0 ops now).2.results =
          pre.map (fun o => ⟨opName o, true, none⟩) ++
          ⟨opName op, false, some msg⟩ ::
          post.map (fun o => ⟨opName o, false, some "skipped"⟩) ∧
        (runBatch st0 ops now).2.message = some msg) ∧
    runBatch ⟨[], [], 0⟩
      [BatchOp.createNode "A" "Task" none false none [] [], BatchOp.link "A" "B"] 5 =
      (⟨[], [], 0⟩,
       { success := false,
         results := [⟨"create_node", true, none⟩,
                     ⟨"link", false, some (targetMissingMsg "B")⟩],
         message := some (targetMissingMsg "B") }) := by
  refine ⟨?_, ?_, ?_⟩
  · intro st0 ops now h
    simp only [runBatch] at h ⊢
    cases hr : (runBatchAux now st0 ops).2.1 with
    | true => rw [hr] at h; simp at h
    | false => simp [hr]
  · intro st0 ops now h
    have hr : (runBatchAux now st0 ops).2.1 = false := by
      cases hc : (runBatchAux now st0 ops).2.1 with
      | true => simp only [runBatch, hc] at h; simp at h
      | false => rfl
    obtain ⟨pre, op, post, stPre, msg, heq, happ, hdisp, hres⟩ :=
      runBatchAux_fail now ops st0 hr
    refine ⟨pre, op, post, stPre, msg, heq, happ, hdisp, ?_, ?_⟩
    · simp only [runBatch, hr]
      simpa using hres
    · simp only [runBatch, hr]
      simp only [Bool.false_eq_true, if_false, hres]
      rw [find_first_failure pre ⟨opName op, false, some msg⟩ _ rfl]
  · decide

/-- Witness for `batch_atomicity_spec`: a one-operation batch whose link
fails leaves the empty store unchanged and admits the failure decomposition. -/
theorem batch_atomicity_spec_witness :
    (runBatch ⟨[], [], 0⟩ [BatchOp.link "A" "B"] 0).1 = ⟨[], [], 0⟩ ∧
    (∃ pre op post stPre msg,
      ([BatchOp.link "A" "B"] : List BatchOp) = pre ++ op :: post ∧
      applyOps 0 ⟨[], [], 0⟩ pre = some stPre ∧
      dispatchOp stPre 0 op = Except.error msg ∧
      (runBatch ⟨[], [], 0⟩ [BatchOp.link "A" "B"] 0).2.results =
        pre.map (fun o => ⟨opName o, true, none⟩) ++
        ⟨opName op, false, some msg⟩ ::
        post.map (fun o => ⟨opName o, false, some "skipped"⟩) ∧
      (runBatch ⟨[], [], 0⟩ [BatchOp.link "A" "B"] 0).2.message = some msg) :=
  ⟨batch_atomicity_spec.1 ⟨[], [], 0⟩ [BatchOp.link "A" "B"] 0 (by decide),
   batch_atomicity_spec.2.1 ⟨[], [], 0⟩ [BatchOp.link "A" "B"] 0 (by decide)⟩

end Todo
